import Mathlib

/-!
Verification development for a documentation-QA backend.

The program under study classifies regions of a Markdown document
(fenced code blocks, inline code, URLs), plans exact-text replacements
proposed by an external generator without touching protected regions,
applies the accepted plans, filters proposals that duplicate advisory
lint findings, and drives a bounded retry loop over generation attempts.

Modelling conventions:
* a document is a `List Char`; offsets are codepoint offsets, as in the
  Python sources;
* a Python slice `doc[a:b]` is `(doc.drop a).take (b - a)` (truncated
  subtraction reproduces the clamping of Python slices on `0 ≤ a, b`);
* Python `str.find(needle, start)` is the least index `i ≥ start` with
  `needle` a prefix of `doc.drop i` (and `none` for Python's `-1`);
* loops whose index strictly increases are written with a fuel argument
  that is large enough to cover every iteration, keeping all definitions
  kernel-computable;
* the backtick character is written `Char.ofNat 96` and the brace and
  double-quote characters by their code points.
-/

namespace DocQA

/-- Half-open character span `[start, end)`, as in `app/regions.py`. -/
abbrev Span := Nat × Nat

/-- Translation of `spans_intersect` from `app/regions.py`:
`a[0] < b[1] and b[0] < a[1]`. -/
def spans_intersect (a b : Span) : Bool :=
  decide (a.1 < b.2) && decide (b.1 < a.2)

/-- Translation of `_intersects_any` from `api/replacements.py` (and of the
inline `any(...)` generator in `api/main.py`). -/
def intersectsAny (span : Span) (spans : List Span) : Bool :=
  spans.any (fun s => spans_intersect span s)

/-- Stable insertion used to model Python's stable `sort(key=lambda x: x[0])`
inside `_merge_spans`: an element is placed before the first element with a
not-smaller start, so elements with equal starts keep their original order. -/
def insertByStart (x : Span) : List Span → List Span
  | [] => [x]
  | y :: ys => if x.1 ≤ y.1 then x :: y :: ys else y :: insertByStart x ys

/-- Stable sort by span start (model of `spans.sort(key=lambda x: x[0])`). -/
def sortByStart : List Span → List Span
  | [] => []
  | x :: xs => insertByStart x (sortByStart xs)

/-- Lexicographic comparison on pairs, as Python's tuple ordering used by
`sorted(blocked)` in `inline_code_spans`. -/
def lexLeSpan (a b : Span) : Bool :=
  decide (a.1 < b.1) || (decide (a.1 = b.1) && decide (a.2 ≤ b.2))

/-- Stable insertion for the lexicographic span order. -/
def insertLexSpan (x : Span) : List Span → List Span
  | [] => [x]
  | y :: ys => if lexLeSpan x y then x :: y :: ys else y :: insertLexSpan x ys

/-- Stable sort modelling Python's `sorted(blocked)` on pairs. -/
def sortLexSpans : List Span → List Span
  | [] => []
  | x :: xs => insertLexSpan x (sortLexSpans xs)

/-- Merge loop of `_merge_spans` from `app/regions.py`: coalesce the next
span into the current one when `s <= cur_end` (touching or overlapping),
taking `max` of the ends, otherwise emit the current span. -/
def mergeLoop : Span → List Span → List Span
  | cur, [] => [cur]
  | cur, s :: rest =>
    if s.1 ≤ cur.2 then mergeLoop (cur.1, max cur.2 s.2) rest
    else cur :: mergeLoop s rest

/-- Translation of `_merge_spans` from `app/regions.py`: sort by start, then
coalesce touching or overlapping spans. -/
def mergeSpans (spans : List Span) : List Span :=
  match sortByStart spans with
  | [] => []
  | x :: xs => mergeLoop x xs

/-- The backtick character (code point 96). -/
def backtick : Char := Char.ofNat 96

/-- Line-break characters recognised by Python `str.splitlines`. -/
def isLineBreak (c : Char) : Bool :=
  c = '\n' || c = '\r' || c = '\x0b' || c = '\x0c' ||
  c = '\x1c' || c = '\x1d' || c = '\x1e' || c = '\x85' ||
  c = Char.ofNat 8232 || c = Char.ofNat 8233

/-- Whitespace as recognised by Python `str.isspace` / `str.lstrip()` (and by
the regex class `\s` in unicode mode): ASCII whitespace, the line-break set,
US, NBSP, OGHAM SPACE MARK, the U+2000 to U+200A spaces, NARROW NBSP,
MEDIUM MATHEMATICAL SPACE and IDEOGRAPHIC SPACE. -/
def isPyWhitespace (c : Char) : Bool :=
  c = ' ' || c = '\t' || isLineBreak c || c = '\x1f' || c = '\xa0' ||
  c = Char.ofNat 5760 ||
  (decide (Char.ofNat 8192 ≤ c) && decide (c ≤ Char.ofNat 8202)) ||
  c = Char.ofNat 8239 || c = Char.ofNat 8287 || c = Char.ofNat 12288

/-- Accumulator-based model of Python `str.splitlines(keepends=True)`.
`acc` holds the current line, reversed.  A `"\r\n"` pair is one line ending;
any other line-break character ends a line by itself; a final line without a
terminator is kept. -/
def splitlinesAux : List Char → List Char → List (List Char)
  | acc, [] => if acc.isEmpty then [] else [acc.reverse]
  | acc, '\r' :: '\n' :: rest => (acc.reverse ++ ['\r', '\n']) :: splitlinesAux [] rest
  | acc, c :: rest =>
    if isLineBreak c then (acc.reverse ++ [c]) :: splitlinesAux [] rest
    else splitlinesAux (c :: acc) rest

/-- Python `text.splitlines(keepends=True)` over a character list. -/
def splitlinesKE (text : List Char) : List (List Char) :=
  splitlinesAux [] text

/-- Concatenation of a list of lines (inverse of `splitlinesKE`). -/
def joinLines (ls : List (List Char)) : List Char :=
  ls.foldr (fun a b => a ++ b) []

/-- The fence marker: three backticks. -/
def fenceMarker : List Char := [backtick, backtick, backtick]

/-- Loop of `fenced_code_spans` from `app/regions.py`.  The `Option Nat`
state models the pair `(inside, start_pos)` of the Python code (`none` is
outside a fence).  A line opens or closes a fence when its content, after
stripping leading whitespace, begins with three backticks
(`stripped.find("```") == 0`).  On opening, the recorded start is the
absolute offset of the first backtick,
`pos + (len(line) - len(stripped))`; on closing the span ends at the end of
the closing line; an unterminated fence extends to `total`, the length of
the whole document. -/
def fencedLoop (total : Nat) : List (List Char) → Nat → Option Nat → List Span
  | [], _, none => []
  | [], _, some startPos => [(startPos, total)]
  | line :: rest, pos, none =>
    let stripped := line.dropWhile isPyWhitespace
    if fenceMarker.isPrefixOf stripped then
      fencedLoop total rest (pos + line.length)
        (some (pos + (line.length - stripped.length)))
    else fencedLoop total rest (pos + line.length) none
  | line :: rest, pos, some startPos =>
    let stripped := line.dropWhile isPyWhitespace
    if fenceMarker.isPrefixOf stripped then
      (startPos, pos + line.length) :: fencedLoop total rest (pos + line.length) none
    else fencedLoop total rest (pos + line.length) (some startPos)

/-- Translation of `fenced_code_spans` from `app/regions.py`. -/
def fenced_code_spans (text : List Char) : List Span :=
  mergeSpans (fencedLoop text.length (splitlinesKE text) 0 none)

/-- Scan of `inline_code_spans` from `app/regions.py`.  The blocked-span
iterator of the Python code is modelled by carrying the not-yet-passed
suffix of the sorted blocked list; `in_block` first discards spans whose
end is `≤ i` and then tests containment in the head.  Inside a blocked
span the index jumps to the span's end and any pending open backtick is
discarded.  Otherwise a backtick either opens a pending span or closes it,
producing `[open, i+1)`.  The fuel argument strictly exceeds the number of
iterations (the index strictly increases each step), so the function agrees
with the Python loop. -/
def inlineScanAux (text : List Char) : Nat → Nat → List Span → Option Nat → List Span
  | 0, _, _, _ => []
  | fuel + 1, i, blocks, openTick =>
    if h : i < text.length then
      match blocks.dropWhile (fun b => decide (b.2 ≤ i)) with
      | b :: bs =>
        if b.1 ≤ i ∧ i < b.2 then
          inlineScanAux text fuel b.2 (b :: bs) none
        else if text.get ⟨i, h⟩ = backtick then
          match openTick with
          | none => inlineScanAux text fuel (i + 1) (b :: bs) (some i)
          | some o => (o, i + 1) :: inlineScanAux text fuel (i + 1) (b :: bs) none
        else inlineScanAux text fuel (i + 1) (b :: bs) openTick
      | [] =>
        if text.get ⟨i, h⟩ = backtick then
          match openTick with
          | none => inlineScanAux text fuel (i + 1) [] (some i)
          | some o => (o, i + 1) :: inlineScanAux text fuel (i + 1) [] none
        else inlineScanAux text fuel (i + 1) [] openTick
    else []

/-- Translation of `inline_code_spans` from `app/regions.py`. -/
def inline_code_spans (text : List Char) (blocked : List Span) : List Span :=
  mergeSpans (inlineScanAux text (text.length + 1) 0 (sortLexSpans blocked) none)

/-- Characters that terminate a bare URL: the regex `URL_RE` is
`https?://` followed by one or more characters outside
`\s < > ) ] \x7d "` (the excluded class of `[^\s<>)\]\x7d"]+`). -/
def isUrlStop (c : Char) : Bool :=
  isPyWhitespace c || c = '<' || c = '>' || c = ')' || c = ']' ||
  c = Char.ofNat 125 || c = Char.ofNat 34

/-- The characters of `https://`. -/
def httpsScheme : List Char := "https://".toList

/-- The characters of `http://`. -/
def httpScheme : List Char := "http://".toList

/-- Match of the scheme part `https?://` of the URL regexes at offset `i`:
returns the offset just past `://` on success.  The optional `s` is greedy;
the two alternatives cannot both match at the same offset. -/
def matchScheme (text : List Char) (i : Nat) : Option Nat :=
  if httpsScheme.isPrefixOf (text.drop i) then some (i + 8)
  else if httpScheme.isPrefixOf (text.drop i) then some (i + 7)
  else none

/-- Left-to-right non-overlapping matching of `URL_RE.finditer`: at the first
offset where `https?://` matches and is followed by at least one
non-terminator character, the match extends greedily over the maximal run of
such characters; scanning resumes at the match end. -/
def urlScanAux (text : List Char) : Nat → Nat → List Span
  | 0, _ => []
  | fuel + 1, i =>
    if i < text.length then
      match matchScheme text i with
      | some schemeEnd =>
        let run := ((text.drop schemeEnd).takeWhile (fun c => !isUrlStop c)).length
        if run = 0 then urlScanAux text fuel (i + 1)
        else (i, schemeEnd + run) :: urlScanAux text fuel (schemeEnd + run)
      | none => urlScanAux text fuel (i + 1)
    else []

/-- The two characters `](` opening a Markdown link destination. -/
def mdLinkOpen : List Char := [']', '(']

/-- Left-to-right matching of `MD_LINK_URL_RE.finditer`, the regex
`\]\((https?://[^)]+)\)`: after `](`, a scheme, then a maximal nonempty run
of non-`)` characters followed by `)`.  The recorded span covers only the
captured URL (group 1), from just after `](` to just before `)`; scanning
resumes after the closing parenthesis. -/
def mdLinkScanAux (text : List Char) : Nat → Nat → List Span
  | 0, _ => []
  | fuel + 1, i =>
    if i < text.length then
      match (if mdLinkOpen.isPrefixOf (text.drop i) then matchScheme text (i + 2) else none) with
      | some schemeEnd =>
        let run := ((text.drop schemeEnd).takeWhile (fun c => !(c = ')'))).length
        if run = 0 then mdLinkScanAux text fuel (i + 1)
        else if schemeEnd + run < text.length then
          (i + 2, schemeEnd + run) :: mdLinkScanAux text fuel (schemeEnd + run + 1)
        else mdLinkScanAux text fuel (i + 1)
      | none => mdLinkScanAux text fuel (i + 1)
    else []

/-- Left-to-right matching of `AUTO_LINK_RE.finditer`, the regex
`<https?://[^>]+>`: after `<`, a scheme, then a maximal nonempty run of
non-`>` characters followed by `>`.  The recorded span strips the angle
brackets (`m.start()+1` to `m.end()-1`); scanning resumes after `>`. -/
def autoLinkScanAux (text : List Char) : Nat → Nat → List Span
  | 0, _ => []
  | fuel + 1, i =>
    if i < text.length then
      match (if text.get? i = some '<' then matchScheme text (i + 1) else none) with
      | some schemeEnd =>
        let run := ((text.drop schemeEnd).takeWhile (fun c => !(c = '>'))).length
        if run = 0 then autoLinkScanAux text fuel (i + 1)
        else if schemeEnd + run < text.length then
          (i + 1, schemeEnd + run) :: autoLinkScanAux text fuel (schemeEnd + run + 1)
        else autoLinkScanAux text fuel (i + 1)
      | none => autoLinkScanAux text fuel (i + 1)
    else []

/-- Translation of `url_spans` from `app/regions.py`: the three scans are
appended in order (bare URLs, Markdown link destinations, autolinks) and
merged. -/
def url_spans (text : List Char) : List Span :=
  mergeSpans (urlScanAux text (text.length + 1) 0 ++
    mdLinkScanAux text (text.length + 1) 0 ++
    autoLinkScanAux text (text.length + 1) 0)

/-- Translation of `forbidden_spans` from `app/regions.py`. -/
def forbidden_spans (text : List Char) : List Span :=
  mergeSpans (fenced_code_spans text ++
    inline_code_spans text (fenced_code_spans text) ++ url_spans text)

/-- The blocked-span list used by `plan_replacements` in
`api/replacements.py` (and identically by `review` in `api/main.py`):
with code edits allowed, inline-code and URL spans concatenated; otherwise
the merged `forbidden_spans`. -/
def blockedFor (doc : List Char) (allow_code_edits : Bool) : List Span :=
  if allow_code_edits then
    inline_code_spans doc (fenced_code_spans doc) ++ url_spans doc
  else forbidden_spans doc

/-- Severity levels of `app/models.py`. -/
inductive Severity where
  | info | warning | error
deriving DecidableEq, Repr

/-- ReplacementOption of `app/models.py`. -/
structure ReplacementOption where
  label : String
  text : List Char
deriving DecidableEq, Repr

/-- Issue of `app/models.py`: a proposed edit from the generator. -/
structure Issue where
  id : String
  rule : String
  message : String
  severity : Severity
  replace_text : List Char
  replace_with : List Char
  replacement : Option (List Char)
  replacements : Option (List ReplacementOption)
deriving DecidableEq, Repr

/-- LintIssue of `app/models.py` (the Python field `end` is a Lean keyword
and is rendered `endPos`). -/
structure LintIssue where
  id : String
  rule : String
  message : String
  severity : Severity
  start : Nat
  endPos : Nat
deriving DecidableEq, Repr

/-- ReplacementPlan of `api/replacements.py` (the Python field `end` is a
Lean keyword and is rendered `endPos`). -/
structure ReplacementPlan where
  start : Nat
  endPos : Nat
  replacement : List Char
  issue_id : String
deriving DecidableEq, Repr

/-- Structured rendering of the `MalformedToolCall` reasons raised by
`plan_replacements`: NotFound and Ambiguous name the issue (Ambiguous also
carries the occurrence count), Overlapping names both issue identifiers of
the violating adjacent pair. -/
inductive PlanError where
  | notFound (issueId : String)
  | ambiguous (issueId : String) (count : Nat)
  | overlapping (prevId currId : String)
deriving DecidableEq, Repr

/-- Whether `needle` occurs in `doc` at offset `i` (Python
`doc[i:i+len(needle)] == needle`). -/
def occursAt (doc needle : List Char) (i : Nat) : Bool :=
  needle.isPrefixOf (doc.drop i)

/-- Python `doc.find(needle, start)`: the least `i` with
`start ≤ i ≤ len doc` at which `needle` occurs, `none` for Python's `-1`. -/
def strFind (doc needle : List Char) (start : Nat) : Option Nat :=
  ((List.range (doc.length + 1)).filter
    (fun i => decide (start ≤ i) && occursAt doc needle i)).head?

/-- Loop of `_find_allowed_occurrences` from `api/replacements.py` (also the
closure `find_allowed_occurrences` in `api/main.py`): repeatedly `find` the
needle from `start`, keep the hit when its span does not intersect any
blocked span, and restart one past the hit, so overlapping occurrences are
all candidates.  The hit index never decreases and strictly grows by at
least one per iteration, so fuel `len doc + 2` covers every iteration. -/
def findOccAux (doc needle : List Char) (blocked : List Span) : Nat → Nat → List Nat
  | 0, _ => []
  | fuel + 1, start =>
    match strFind doc needle start with
    | none => []
    | some idx =>
      if intersectsAny (idx, idx + needle.length) blocked then
        findOccAux doc needle blocked fuel (idx + 1)
      else idx :: findOccAux doc needle blocked fuel (idx + 1)

/-- Translation of `_find_allowed_occurrences` from `api/replacements.py`. -/
def find_allowed_occurrences (doc needle : List Char) (blocked : List Span) : List Nat :=
  findOccAux doc needle blocked (doc.length + 2) 0

/-- Specification-side description of the allowed occurrences scanned from
offset `start`: every position of a left-to-right scan (overlapping ones
included) at which the needle occurs and whose span does not intersect any
blocked span, in increasing order. -/
def allowedFrom (doc needle : List Char) (blocked : List Span) (start : Nat) : List Nat :=
  (List.range (doc.length + 1)).filter
    (fun i => decide (start ≤ i) && occursAt doc needle i &&
      !intersectsAny (i, i + needle.length) blocked)

/-- Specification-side description of all allowed occurrences of a needle:
candidate positions of the whole-document scan surviving the forbidden-span
filter. -/
def allowedPositions (doc needle : List Char) (blocked : List Span) : List Nat :=
  allowedFrom doc needle blocked 0

/-- Per-issue loop of `plan_replacements` (`api/replacements.py`, the `for
issue in issues` body): resolve each issue in input order to its allowed
occurrences; zero occurrences raise NotFound naming the issue, more than one
raise Ambiguous naming the issue and the count, exactly one yields a
`ReplacementPlan` at that position. -/
def planIssues (doc : List Char) (blocked : List Span) : List Issue → Except PlanError (List ReplacementPlan)
  | [] => .ok []
  | issue :: rest =>
    match find_allowed_occurrences doc issue.replace_text blocked with
    | [] => .error (.notFound issue.id)
    | [p] =>
      (planIssues doc blocked rest).map
        (fun ps =>
          { start := p, endPos := p + issue.replace_text.length,
            replacement := issue.replace_with, issue_id := issue.id } :: ps)
    | ps => .error (.ambiguous issue.id ps.length)

/-- Comparison by the key `(p.start, p.end)` used by
`sorted(plans, key=lambda p: (p.start, p.end))`. -/
def planLe (p q : ReplacementPlan) : Bool :=
  decide (p.start < q.start) ||
    (decide (p.start = q.start) && decide (p.endPos ≤ q.endPos))

/-- Stable insertion for the plan order. -/
def insertPlan (x : ReplacementPlan) : List ReplacementPlan → List ReplacementPlan
  | [] => [x]
  | y :: ys => if planLe x y then x :: y :: ys else y :: insertPlan x ys

/-- Stable sort modelling Python's `sorted(plans, key=lambda p: (p.start, p.end))`. -/
def sortPlans : List ReplacementPlan → List ReplacementPlan
  | [] => []
  | x :: xs => insertPlan x (sortPlans xs)

/-- Adjacent-pair walk of `plan_replacements`
(`for prev, curr in zip(plans_sorted, plans_sorted[1:])`): the first
adjacent pair with `curr.start < prev.end`, if any, as the pair of issue
identifiers of the Overlapping error. -/
def firstOverlap : List ReplacementPlan → Option (String × String)
  | p :: q :: rest =>
    if q.start < p.endPos then some (p.issue_id, q.issue_id)
    else firstOverlap (q :: rest)
  | _ => none

/-- Translation of `plan_replacements` from `api/replacements.py`:
compute the blocked spans for the policy, resolve every issue, sort the
plans by `(start, end)` and reject any adjacent overlap. -/
def plan_replacements (doc : List Char) (issues : List Issue)
    (allow_code_edits : Bool) : Except PlanError (List ReplacementPlan) :=
  match planIssues doc (blockedFor doc allow_code_edits) issues with
  | .error e => .error e
  | .ok plans =>
    match firstOverlap (sortPlans plans) with
    | some pq => .error (.overlapping pq.1 pq.2)
    | none => .ok (sortPlans plans)

/-- Python slice `doc[a:b]` (for nonnegative bounds). -/
def pySlice (doc : List Char) (a b : Nat) : List Char :=
  (doc.drop a).take (b - a)

/-- Cursor loop of `apply_plans` from `api/replacements.py`: for each plan
append `doc[cursor:p.start]` and the replacement, advance the cursor to
`p.end`, and finally append the tail `doc[cursor:]`. -/
def applyLoop (doc : List Char) : List ReplacementPlan → Nat → List Char
  | [], cursor => doc.drop cursor
  | p :: rest, cursor =>
    pySlice doc cursor p.start ++ p.replacement ++ applyLoop doc rest p.endPos

/-- Translation of `apply_plans` from `api/replacements.py` (the empty plan
list returns the document unchanged before any cursor walk). -/
def apply_plans (doc : List Char) (plans : List ReplacementPlan) : List Char :=
  match plans with
  | [] => doc
  | _ => applyLoop doc plans 0

/-- Duplicate filter of `review` in `api/main.py`: a proposed issue whose
`replace_text` has exactly one allowed occurrence whose span overlaps some
advisory lint span is skipped; every other issue is appended in order. -/
def filterDuplicates (doc : List Char) (blocked : List Span)
    (lint_spans : List Span) : List Issue → List Issue
  | [] => []
  | issue :: rest =>
    match find_allowed_occurrences doc issue.replace_text blocked with
    | [p] =>
      if intersectsAny (p, p + issue.replace_text.length) lint_spans then
        filterDuplicates doc blocked lint_spans rest
      else issue :: filterDuplicates doc blocked lint_spans rest
    | _ => issue :: filterDuplicates doc blocked lint_spans rest

/-- Executable description of the duplicate-filter drop condition, used to
characterise `filterDuplicates` against the specification vocabulary. -/
def dropsAsDuplicate (doc : List Char) (blocked : List Span)
    (lintIssues : List LintIssue) (issue : Issue) : Bool :=
  match allowedPositions doc issue.replace_text blocked with
  | [p] =>
    intersectsAny (p, p + issue.replace_text.length)
      (lintIssues.map (fun li => (li.start, li.endPos)))
  | _ => false

/-- ReviewResponse of `app/models.py`: the parsed generator payload. -/
structure ReviewResponse where
  version : String
  issues : List Issue
deriving DecidableEq, Repr

/-- Exception type of `api/errors.py`: one class carrying a human-readable
reason, covering JsonInvalid, SchemaInvalid, NotFound, Ambiguous and
Overlapping conditions. -/
structure MalformedToolCall where
  reason : String
deriving DecidableEq, Repr

/-- Reason strings of the `MalformedToolCall` errors raised by
`plan_replacements` (the single-quote punctuation around the identifiers in
the Python f-strings is omitted). -/
def planErrorReason : PlanError → String
  | .notFound issueId =>
    "Replacement text not found outside forbidden regions for issue " ++ issueId
  | .ambiguous issueId n =>
    "Replacement text is ambiguous (occurs " ++ toString n ++
      " times) for issue " ++ issueId
  | .overlapping a b => "Overlapping edits between issues " ++ a ++ " and " ++ b

/-- Successful outcome of one review request, after `api/main.py` constructs
the response: the version, the updated document, the parsed review with the
filtered issue list, and the advisory lint issues.  The unified-diff string
of the response is an external, presentation-only rendering
(`api/diffing.py` delegates to the `difflib` library) and is not part of
this outcome model. -/
structure ReviewOutcome where
  version : String
  updated_doc : List Char
  llm_review : ReviewResponse
  lint_issues : List LintIssue
deriving DecidableEq, Repr

/-- Terminal result of one request: success, or the HTTP 422 failure whose
detail carries `last_error or "unknown"`. -/
inductive ReviewResult where
  | success (outcome : ReviewOutcome)
  | failure (reason : String)
deriving DecidableEq, Repr

/-- One attempt of the `review` loop in `api/main.py`, from prompt building
to response construction.  Prompt building, generation routing (TGI with
OpenRouter fallback) and JSON parsing/schema validation
(`parse_review_response`) are external effects; they are abstracted by
`genParse`, which maps the feedback carried into the prompt to either a
parsed `ReviewResponse` or a `MalformedToolCall` (JsonInvalid /
SchemaInvalid).  The rest of the attempt is the concrete pipeline:
duplicate filtering, planning, application. -/
def reviewAttempt (doc : List Char) (allow_code_edits : Bool)
    (lint_issues : List LintIssue)
    (genParse : Option String → Except MalformedToolCall ReviewResponse)
    (feedback : Option String) : Except MalformedToolCall ReviewOutcome :=
  match genParse feedback with
  | .error e => .error e
  | .ok rev =>
    let lint_spans := lint_issues.map (fun li => (li.start, li.endPos))
    let filtered := filterDuplicates doc (blockedFor doc allow_code_edits) lint_spans rev.issues
    match plan_replacements doc filtered allow_code_edits with
    | .error e => .error ⟨planErrorReason e⟩
    | .ok plans =>
      .ok { version := rev.version,
            updated_doc := apply_plans doc plans,
            llm_review := { rev with issues := filtered },
            lint_issues := lint_issues }

/-- Retry loop of `review` in `api/main.py`
(`for _ in range(attempts): try ... except MalformedToolCall`): each caught
error records its reason as both the feedback for the next prompt and the
last error; exhausting the attempts yields the terminal failure with
`last_error or "unknown"`. -/
def reviewLoop (attempt : Option String → Except MalformedToolCall ReviewOutcome) :
    Nat → Option String → Option String → ReviewResult
  | 0, _, lastError => .failure (lastError.getD "unknown")
  | n + 1, feedback, lastError =>
    match attempt feedback with
    | .ok o => .success o
    | .error e => reviewLoop attempt n (some e.reason) (some e.reason)

/-- The orchestration of `review` in `api/main.py`, with the retry budget
(`settings.RETRIES_ON_MALFORMED`, default 1) as a parameter:
`attempts = retries + 1`, starting with no feedback and no recorded error.
The code-density policy decision (fenced-character ratio against a float
threshold) is taken before the loop and fixed for all attempts; it enters
here as the boolean `allow_code_edits`. -/
def review (doc : List Char) (allow_code_edits : Bool)
    (lint_issues : List LintIssue)
    (genParse : Option String → Except MalformedToolCall ReviewResponse)
    (retries : Nat) : ReviewResult :=
  reviewLoop (reviewAttempt doc allow_code_edits lint_issues genParse)
    (retries + 1) none none

/-- Default of the retry budget `settings.RETRIES_ON_MALFORMED` in
`app/config.py`: the number of extra attempts when model output is
malformed. -/
def RETRIES_ON_MALFORMED : Nat := 1

/-- The feedback chain of a fixed attempt function: `fbChain attempt k` is
the feedback carried into attempt `k` when every earlier attempt failed —
`none` initially, then the reason of the previous attempt's error. -/
def fbChain (attempt : Option String → Except MalformedToolCall ReviewOutcome) :
    Nat → Option String
  | 0 => none
  | k + 1 =>
    match attempt (fbChain attempt k) with
    | .error e => some e.reason
    | .ok _ => fbChain attempt k

/-- Specification-side resolution of one issue that is assumed to have a
unique allowed occurrence: the plan at that occurrence. -/
def resolvedPlan (doc : List Char) (blocked : List Span) (issue : Issue) : ReplacementPlan :=
  { start := (allowedPositions doc issue.replace_text blocked).headD 0,
    endPos := (allowedPositions doc issue.replace_text blocked).headD 0 +
      issue.replace_text.length,
    replacement := issue.replace_with,
    issue_id := issue.id }

/-- Specification-side resolution of an issue list. -/
def resolvePlans (doc : List Char) (blocked : List Span) (issues : List Issue) :
    List ReplacementPlan :=
  issues.map (resolvedPlan doc blocked)

/-- The fence-marker lines of a document, specification-side: for every line
whose content after stripping leading whitespace begins with a triple
backtick, the pair of the marker's absolute offset and the line-end
offset. -/
def fenceMarkerLinesAux : List (List Char) → Nat → List (Nat × Nat)
  | [], _ => []
  | line :: rest, pos =>
    let stripped := line.dropWhile isPyWhitespace
    if fenceMarker.isPrefixOf stripped then
      (pos + (line.length - stripped.length), pos + line.length) ::
        fenceMarkerLinesAux rest (pos + line.length)
    else fenceMarkerLinesAux rest (pos + line.length)

/-- Specification-side per-fence spans, transcribing the claim: marker lines
pair up; each fence opened by a marker line spans from the opening marker's
absolute offset to the end of the closing fence line (the closing fence
included); a document ending inside a fence extends the span to
end-of-document (`total`). -/
def pairFences (total : Nat) : List (Nat × Nat) → List Span
  | [] => []
  | [o] => [(o.1, total)]
  | o :: c :: rest => (o.1, c.2) :: pairFences total rest

/-- Specification-side cursor walk of `apply_plans`, transcribing the
claim: fold over the plans accumulating `document[cursor:plan.start]` then
the replacement, advancing the cursor to `plan.end`, and finally append the
tail `document[cursor:]`. -/
def applyWalkSpec (doc : List Char) (plans : List ReplacementPlan) : List Char :=
  let st := plans.foldl
    (fun (acc : List Char × Nat) p =>
      (acc.1 ++ pySlice doc acc.2 p.start ++ p.replacement, p.endPos))
    (([] : List Char), 0)
  st.1 ++ doc.drop st.2

/-- Modelled from the spec: the line-based diff between two line lists.  The
repository delegates unified-diff rendering to the external `difflib`
library (`api/diffing.py`), which is not part of the sources; the spec calls
it "a standard line-based unified diff".  A diff is modelled as a full edit
script over lines (context, deletion, insertion), which is the semantic
content of a unified diff with full context. -/
inductive DiffOp where
  | keep (l : List Char)
  | del (l : List Char)
  | ins (l : List Char)
deriving DecidableEq, Repr

/-- Modelled from the spec: a concrete line-diff computation producing an
edit script from the old to the new line list (greedy matching of equal
lines). -/
def lineDiff : List (List Char) → List (List Char) → List DiffOp
  | [], bs => bs.map .ins
  | a :: as, [] => .del a :: lineDiff as []
  | a :: as, b :: bs =>
    if a = b then .keep a :: lineDiff as bs
    else .del a :: lineDiff as (b :: bs)

/-- Modelled from the spec: reversing a diff swaps deletions and
insertions. -/
def reverseDiff (ops : List DiffOp) : List DiffOp :=
  ops.map (fun op =>
    match op with
    | .keep l => .keep l
    | .del l => .ins l
    | .ins l => .del l)

/-- Modelled from the spec: applying an edit script to a line list; context
and deleted lines must match the input exactly. -/
def applyDiff : List DiffOp → List (List Char) → Option (List (List Char))
  | [], [] => some []
  | [], _ :: _ => none
  | .keep l :: ops, x :: xs =>
    if x = l then (applyDiff ops xs).map (fun ys => l :: ys) else none
  | .keep _ :: _, [] => none
  | .del l :: ops, x :: xs => if x = l then applyDiff ops xs else none
  | .del _ :: _, [] => none
  | .ins l :: ops, xs => (applyDiff ops xs).map (fun ys => l :: ys)

/-- A generator issue for concrete evaluations (lint-style metadata fixed). -/
def mkIssue (id : String) (ft rt : String) : Issue :=
  { id := id, rule := "r", message := "m", severity := .info,
    replace_text := ft.toList, replace_with := rt.toList,
    replacement := none, replacements := none }

/-- A concrete generation oracle whose first attempt is malformed and whose
retry (prompted with feedback) parses to an empty issue list. -/
def wGenParse : Option String → Except MalformedToolCall ReviewResponse
  | none => .error ⟨"Model did not return valid JSON"⟩
  | some _ => .ok { version := "v1", issues := [] }

/-! ### Sorting and merging lemmas -/

theorem mem_insertByStart (x z : Span) (l : List Span) :
    z ∈ insertByStart x l ↔ z = x ∨ z ∈ l := by
  induction l with
  | nil => simp [insertByStart]
  | cons y ys ih =>
    by_cases h : x.1 ≤ y.1
    · simp [insertByStart, h]
    · simp only [insertByStart, if_neg h, List.mem_cons, ih]
      tauto

theorem mem_sortByStart (z : Span) (l : List Span) :
    z ∈ sortByStart l ↔ z ∈ l := by
  induction l with
  | nil => simp [sortByStart]
  | cons x xs ih => simp [sortByStart, mem_insertByStart, ih]

theorem insertByStart_sorted (x : Span) (l : List Span)
    (h : l.Pairwise (fun a b => a.1 ≤ b.1)) :
    (insertByStart x l).Pairwise (fun a b => a.1 ≤ b.1) := by
  induction l with
  | nil => simp [insertByStart]
  | cons y ys ih =>
    rw [List.pairwise_cons] at h
    obtain ⟨hy, hys⟩ := h
    by_cases hxy : x.1 ≤ y.1
    · rw [insertByStart, if_pos hxy, List.pairwise_cons]
      refine ⟨?_, by rw [List.pairwise_cons]; exact ⟨hy, hys⟩⟩
      intro z hz
      rcases List.mem_cons.mp hz with rfl | hz
      · exact hxy
      · exact le_trans hxy (hy z hz)
    · rw [insertByStart, if_neg hxy, List.pairwise_cons]
      refine ⟨?_, ih hys⟩
      intro z hz
      rcases (mem_insertByStart x z ys).mp hz with rfl | hz
      · omega
      · exact hy z hz

theorem sortByStart_sorted (l : List Span) :
    (sortByStart l).Pairwise (fun a b => a.1 ≤ b.1) := by
  induction l with
  | nil => simp [sortByStart]
  | cons x xs ih => exact insertByStart_sorted x _ ih

theorem mergeLoop_pairwise (rest : List Span) (cur : Span)
    (h : (cur :: rest).Pairwise (fun a b => a.1 ≤ b.1)) :
    (mergeLoop cur rest).Pairwise (fun a b => a.2 < b.1 ∧ a.1 ≤ b.1) ∧
      ∀ z ∈ mergeLoop cur rest, cur.1 ≤ z.1 := by
  induction rest generalizing cur with
  | nil =>
    simp [mergeLoop]
  | cons s rest ih =>
    rw [List.pairwise_cons] at h
    obtain ⟨hcur, hrest⟩ := h
    by_cases hs : s.1 ≤ cur.2
    · rw [mergeLoop, if_pos hs]
      have h' : ((cur.1, max cur.2 s.2) :: rest).Pairwise (fun a b => a.1 ≤ b.1) := by
        rw [List.pairwise_cons]
        exact ⟨fun z hz => hcur z (List.mem_cons_of_mem s hz),
          (List.pairwise_cons.mp hrest).2⟩
      exact ih _ h'
    · rw [mergeLoop, if_neg hs]
      obtain ⟨htail, hmin⟩ := ih s hrest
      have hcs : cur.1 ≤ s.1 := hcur s (List.mem_cons_self s rest)
      constructor
      · rw [List.pairwise_cons]
        refine ⟨?_, htail⟩
        intro z hz
        have := hmin z hz
        omega
      · intro z hz
        rcases List.mem_cons.mp hz with rfl | hz
        · exact le_refl _
        · have := hmin z hz; omega

theorem mergeSpans_pairwise (l : List Span) :
    (mergeSpans l).Pairwise (fun a b => a.2 < b.1 ∧ a.1 ≤ b.1) := by
  rw [mergeSpans]
  rcases hs : sortByStart l with _ | ⟨x, xs⟩
  · simp
  · have := sortByStart_sorted l
    rw [hs] at this
    exact (mergeLoop_pairwise xs x this).1

theorem mergeLoop_avoid (b : Span) (hb : b.1 < b.2) :
    ∀ (rest : List Span) (cur : Span),
      (b.2 ≤ cur.1 ∨ cur.2 ≤ b.1) →
      (∀ s ∈ rest, b.2 ≤ s.1 ∨ s.2 ≤ b.1) →
      ∀ z ∈ mergeLoop cur rest, b.2 ≤ z.1 ∨ z.2 ≤ b.1 := by
  intro rest
  induction rest with
  | nil =>
    intro cur hcur _ z hz
    rw [mergeLoop] at hz
    simp at hz
    subst hz; exact hcur
  | cons s rest ih =>
    intro cur hcur hrest z hz
    have hsav : b.2 ≤ s.1 ∨ s.2 ≤ b.1 := hrest s (List.mem_cons_self s rest)
    have hrest' : ∀ t ∈ rest, b.2 ≤ t.1 ∨ t.2 ≤ b.1 :=
      fun t ht => hrest t (List.mem_cons_of_mem s ht)
    by_cases hs : s.1 ≤ cur.2
    · rw [mergeLoop, if_pos hs] at hz
      refine ih (cur.1, max cur.2 s.2) ?_ hrest' z hz
      rcases hcur with h | h
      · exact Or.inl h
      · rcases hsav with h' | h'
        · omega
        · right; simp only; omega
    · rw [mergeLoop, if_neg hs] at hz
      rcases List.mem_cons.mp hz with rfl | hz
      · exact hcur
      · exact ih s hsav hrest' z hz

theorem mergeSpans_avoid (b : Span) (hb : b.1 < b.2) (l : List Span)
    (h : ∀ s ∈ l, b.2 ≤ s.1 ∨ s.2 ≤ b.1) :
    ∀ z ∈ mergeSpans l, b.2 ≤ z.1 ∨ z.2 ≤ b.1 := by
  intro z hz
  rw [mergeSpans] at hz
  rcases hs : sortByStart l with _ | ⟨x, xs⟩
  · rw [hs] at hz; simp at hz
  · rw [hs] at hz
    have hmem : ∀ s ∈ x :: xs, b.2 ≤ s.1 ∨ s.2 ≤ b.1 := by
      intro s hsm
      refine h s ?_
      rw [← mem_sortByStart, hs]
      exact hsm
    exact mergeLoop_avoid b hb xs x (hmem x (List.mem_cons_self x xs))
      (fun t ht => hmem t (List.mem_cons_of_mem x ht)) z hz

theorem mergeLoop_wf (c : Nat) :
    ∀ (rest : List Span) (cur : Span),
      cur.1 + c ≤ cur.2 → (∀ s ∈ rest, s.1 + c ≤ s.2) →
      ∀ z ∈ mergeLoop cur rest, z.1 + c ≤ z.2 := by
  intro rest
  induction rest with
  | nil =>
    intro cur hcur _ z hz
    rw [mergeLoop] at hz
    simp at hz
    subst hz; exact hcur
  | cons s rest ih =>
    intro cur hcur hrest z hz
    have hrest' : ∀ t ∈ rest, t.1 + c ≤ t.2 :=
      fun t ht => hrest t (List.mem_cons_of_mem s ht)
    by_cases hs : s.1 ≤ cur.2
    · rw [mergeLoop, if_pos hs] at hz
      refine ih (cur.1, max cur.2 s.2) ?_ hrest' z hz
      simp only
      omega
    · rw [mergeLoop, if_neg hs] at hz
      rcases List.mem_cons.mp hz with rfl | hz
      · exact hcur
      · exact ih s (hrest s (List.mem_cons_self s rest)) hrest' z hz

theorem mergeSpans_wf (c : Nat) (l : List Span)
    (h : ∀ s ∈ l, s.1 + c ≤ s.2) :
    ∀ z ∈ mergeSpans l, z.1 + c ≤ z.2 := by
  intro z hz
  rw [mergeSpans] at hz
  rcases hs : sortByStart l with _ | ⟨x, xs⟩
  · rw [hs] at hz; simp at hz
  · rw [hs] at hz
    have hmem : ∀ s ∈ x :: xs, s.1 + c ≤ s.2 := by
      intro s hsm
      refine h s ?_
      rw [← mem_sortByStart, hs]
      exact hsm
    exact mergeLoop_wf c xs x (hmem x (List.mem_cons_self x xs))
      (fun t ht => hmem t (List.mem_cons_of_mem x ht)) z hz

theorem mem_insertLexSpan (x z : Span) (l : List Span) :
    z ∈ insertLexSpan x l ↔ z = x ∨ z ∈ l := by
  induction l with
  | nil => simp [insertLexSpan]
  | cons y ys ih =>
    by_cases h : lexLeSpan x y
    · simp [insertLexSpan, h]
    · simp only [insertLexSpan, if_neg h, List.mem_cons, ih]
      tauto

theorem mem_sortLexSpans (z : Span) (l : List Span) :
    z ∈ sortLexSpans l ↔ z ∈ l := by
  induction l with
  | nil => simp [sortLexSpans]
  | cons x xs ih => simp [sortLexSpans, mem_insertLexSpan, ih]

theorem sortLexSpans_eq_self (l : List Span)
    (h : l.Pairwise (fun a b => lexLeSpan a b = true)) :
    sortLexSpans l = l := by
  induction l with
  | nil => rfl
  | cons x xs ih =>
    rw [List.pairwise_cons] at h
    obtain ⟨hx, hxs⟩ := h
    rw [sortLexSpans, ih hxs]
    cases xs with
    | nil => rfl
    | cons y ys =>
      rw [insertLexSpan, if_pos (hx y (List.mem_cons_self y ys))]

theorem mem_insertPlan (x z : ReplacementPlan) (l : List ReplacementPlan) :
    z ∈ insertPlan x l ↔ z = x ∨ z ∈ l := by
  induction l with
  | nil => simp [insertPlan]
  | cons y ys ih =>
    by_cases h : planLe x y
    · simp [insertPlan, h]
    · simp only [insertPlan, if_neg h, List.mem_cons, ih]
      tauto

theorem mem_sortPlans (z : ReplacementPlan) (l : List ReplacementPlan) :
    z ∈ sortPlans l ↔ z ∈ l := by
  induction l with
  | nil => simp [sortPlans]
  | cons x xs ih => simp [sortPlans, mem_insertPlan, ih]

theorem planLe_total (p q : ReplacementPlan) (h : ¬ planLe p q = true) :
    planLe q p = true := by
  simp only [planLe, Bool.or_eq_true, Bool.and_eq_true, decide_eq_true_eq] at *
  omega

theorem planLe_trans (p q r : ReplacementPlan)
    (h1 : planLe p q = true) (h2 : planLe q r = true) : planLe p r = true := by
  simp only [planLe, Bool.or_eq_true, Bool.and_eq_true, decide_eq_true_eq] at *
  omega

theorem insertPlan_sorted (x : ReplacementPlan) (l : List ReplacementPlan)
    (h : l.Pairwise (fun a b => planLe a b = true)) :
    (insertPlan x l).Pairwise (fun a b => planLe a b = true) := by
  induction l with
  | nil => simp [insertPlan]
  | cons y ys ih =>
    rw [List.pairwise_cons] at h
    obtain ⟨hy, hys⟩ := h
    by_cases hxy : planLe x y
    · rw [insertPlan, if_pos hxy, List.pairwise_cons]
      refine ⟨?_, by rw [List.pairwise_cons]; exact ⟨hy, hys⟩⟩
      intro z hz
      rcases List.mem_cons.mp hz with rfl | hz
      · exact hxy
      · exact planLe_trans x y z hxy (hy z hz)
    · rw [insertPlan, if_neg hxy, List.pairwise_cons]
      refine ⟨?_, ih hys⟩
      intro z hz
      rcases (mem_insertPlan x z ys).mp hz with rfl | hz
      · exact planLe_total _ y hxy
      · exact hy z hz

theorem sortPlans_sorted (l : List ReplacementPlan) :
    (sortPlans l).Pairwise (fun a b => planLe a b = true) := by
  induction l with
  | nil => simp [sortPlans]
  | cons x xs ih => exact insertPlan_sorted x _ ih

/-! ### Occurrence-scan characterisation -/

theorem sorted_lt_eq_of_mem_iff : ∀ (l₁ l₂ : List Nat),
    l₁.Pairwise (· < ·) → l₂.Pairwise (· < ·) →
    (∀ x, x ∈ l₁ ↔ x ∈ l₂) → l₁ = l₂ := by
  intro l₁
  induction l₁ with
  | nil =>
    intro l₂ _ _ hmem
    cases l₂ with
    | nil => rfl
    | cons b t₂ =>
      exact absurd ((hmem b).mpr (List.mem_cons_self b t₂)) (List.not_mem_nil b)
  | cons a t ih =>
    intro l₂ h₁ h₂ hmem
    cases l₂ with
    | nil => exact absurd ((hmem a).mp (List.mem_cons_self a t)) (List.not_mem_nil a)
    | cons b t₂ =>
      rw [List.pairwise_cons] at h₁ h₂
      obtain ⟨ha, ht⟩ := h₁
      obtain ⟨hb, ht₂⟩ := h₂
      have hab : a = b := by
        have h1 : a = b ∨ a ∈ t₂ := by
          have := (hmem a).mp (List.mem_cons_self a t)
          simpa using this
        have h2 : b = a ∨ b ∈ t := by
          have := (hmem b).mpr (List.mem_cons_self b t₂)
          simpa using this
        rcases h1 with h1 | h1
        · exact h1
        · rcases h2 with h2 | h2
          · omega
          · have := hb a h1
            have := ha b h2
            omega
      subst hab
      congr 1
      refine ih t₂ ht ht₂ ?_
      intro x
      constructor
      · intro hx
        have hmem' := (hmem x).mp (List.mem_cons_of_mem a hx)
        rcases List.mem_cons.mp hmem' with heq | h
        · subst heq
          have := ha x hx
          omega
        · exact h
      · intro hx
        have hmem' := (hmem x).mpr (List.mem_cons_of_mem a hx)
        rcases List.mem_cons.mp hmem' with heq | h
        · subst heq
          have := hb x hx
          omega
        · exact h

theorem strFind_eq_none (doc needle : List Char) (start : Nat)
    (h : strFind doc needle start = none) :
    ∀ i, start ≤ i → i ≤ doc.length → occursAt doc needle i = false := by
  intro i hsi hil
  rw [strFind, List.head?_eq_none_iff, List.filter_eq_nil_iff] at h
  have := h i (List.mem_range.mpr (by omega))
  simp only [Bool.and_eq_true, decide_eq_true_eq, not_and] at this
  have := this hsi
  simp only [Bool.not_eq_true] at this
  exact this

theorem strFind_eq_some (doc needle : List Char) (start i : Nat)
    (h : strFind doc needle start = some i) :
    start ≤ i ∧ i ≤ doc.length ∧ occursAt doc needle i = true ∧
      ∀ j, start ≤ j → j < i → occursAt doc needle j = false := by
  rw [strFind] at h
  rcases hfe : (List.range (doc.length + 1)).filter
      (fun k => decide (start ≤ k) && occursAt doc needle k) with _ | ⟨x, t⟩
  · rw [hfe] at h; cases h
  · rw [hfe] at h
    have hx : x = i := by
      simpa using h
    subst hx
    have hpw : (x :: t).Pairwise (· < ·) := by
      rw [← hfe]
      exact (List.pairwise_lt_range _).filter _
    have hmemx : x ∈ (List.range (doc.length + 1)).filter
        (fun k => decide (start ≤ k) && occursAt doc needle k) := by
      rw [hfe]; exact List.mem_cons_self x t
    rw [List.mem_filter, List.mem_range] at hmemx
    obtain ⟨hxr, hxp⟩ := hmemx
    simp only [Bool.and_eq_true, decide_eq_true_eq] at hxp
    refine ⟨hxp.1, by omega, hxp.2, ?_⟩
    intro j hsj hji
    by_contra hocc
    simp only [Bool.not_eq_false] at hocc
    have hjmem : j ∈ (List.range (doc.length + 1)).filter
        (fun k => decide (start ≤ k) && occursAt doc needle k) := by
      rw [List.mem_filter, List.mem_range]
      exact ⟨by omega, by simp [hsj, hocc]⟩
    rw [hfe] at hjmem
    rcases List.mem_cons.mp hjmem with heq | hjt
    · omega
    · have := (List.pairwise_cons.mp hpw).1 j hjt
      omega

theorem mem_allowedFrom (doc needle : List Char) (blocked : List Span)
    (start i : Nat) :
    i ∈ allowedFrom doc needle blocked start ↔
      start ≤ i ∧ i ≤ doc.length ∧ occursAt doc needle i = true ∧
        intersectsAny (i, i + needle.length) blocked = false := by
  rw [allowedFrom, List.mem_filter, List.mem_range]
  simp only [Bool.and_eq_true, decide_eq_true_eq, Bool.not_eq_true']
  constructor
  · rintro ⟨h1, ⟨h2, h3⟩, h4⟩
    exact ⟨h2, by omega, h3, h4⟩
  · rintro ⟨h1, h2, h3, h4⟩
    exact ⟨by omega, ⟨h1, h3⟩, h4⟩

theorem pairwise_allowedFrom (doc needle : List Char) (blocked : List Span)
    (start : Nat) : (allowedFrom doc needle blocked start).Pairwise (· < ·) :=
  (List.pairwise_lt_range _).filter _

theorem allowedFrom_split (doc needle : List Char) (blocked : List Span)
    (start idx : Nat) (hsi : start ≤ idx) (hil : idx ≤ doc.length)
    (hocc : occursAt doc needle idx = true)
    (hmin : ∀ j, start ≤ j → j < idx → occursAt doc needle j = false) :
    allowedFrom doc needle blocked start =
      (if intersectsAny (idx, idx + needle.length) blocked then []
        else [idx]) ++ allowedFrom doc needle blocked (idx + 1) := by
  refine sorted_lt_eq_of_mem_iff _ _ (pairwise_allowedFrom _ _ _ _) ?_ ?_
  · by_cases hint : intersectsAny (idx, idx + needle.length) blocked
    · rw [if_pos hint, List.nil_append]
      exact pairwise_allowedFrom _ _ _ _
    · rw [if_neg hint, List.singleton_append, List.pairwise_cons]
      refine ⟨?_, pairwise_allowedFrom _ _ _ _⟩
      intro x hx
      have := (mem_allowedFrom _ _ _ _ _).mp hx
      omega
  · intro x
    rw [List.mem_append, mem_allowedFrom]
    by_cases hint : intersectsAny (idx, idx + needle.length) blocked
    · rw [if_pos hint]
      simp only [List.not_mem_nil, false_or, mem_allowedFrom]
      constructor
      · rintro ⟨h1, h2, h3, h4⟩
        rcases Nat.lt_trichotomy x idx with hlt | heq | hgt
        · rw [hmin x h1 hlt] at h3; cases h3
        · subst heq; rw [hint] at h4; cases h4
        · exact ⟨by omega, h2, h3, h4⟩
      · rintro ⟨h1, h2, h3, h4⟩
        exact ⟨by omega, h2, h3, h4⟩
    · rw [if_neg hint]
      simp only [List.mem_singleton, mem_allowedFrom]
      constructor
      · rintro ⟨h1, h2, h3, h4⟩
        rcases Nat.lt_trichotomy x idx with hlt | heq | hgt
        · rw [hmin x h1 hlt] at h3; cases h3
        · exact Or.inl heq
        · exact Or.inr ⟨by omega, h2, h3, h4⟩
      · rintro (heq | ⟨h1, h2, h3, h4⟩)
        · subst heq
          simp only [Bool.not_eq_true] at hint
          exact ⟨hsi, hil, hocc, hint⟩
        · exact ⟨by omega, h2, h3, h4⟩

theorem findOccAux_eq (doc needle : List Char) (blocked : List Span) :
    ∀ (fuel start : Nat), doc.length + 2 ≤ fuel + start →
      findOccAux doc needle blocked fuel start =
        allowedFrom doc needle blocked start := by
  intro fuel
  induction fuel with
  | zero =>
    intro start hf
    rw [findOccAux]
    symm
    rw [allowedFrom, List.filter_eq_nil_iff]
    intro i hi
    rw [List.mem_range] at hi
    simp only [Bool.and_eq_true, decide_eq_true_eq, Bool.not_eq_true']
    rintro ⟨⟨hsi, _⟩, _⟩
    omega
  | succ fuel ih =>
    intro start hf
    rw [findOccAux]
    cases hfind : strFind doc needle start with
    | none =>
      symm
      rw [allowedFrom, List.filter_eq_nil_iff]
      intro i hi
      rw [List.mem_range] at hi
      simp only [Bool.and_eq_true, decide_eq_true_eq, Bool.not_eq_true']
      rintro ⟨⟨hsi, hocc⟩, -⟩
      rw [strFind_eq_none doc needle start hfind i hsi (by omega)] at hocc
      cases hocc
    | some idx =>
      obtain ⟨h1, h2, h3, h4⟩ := strFind_eq_some doc needle start idx hfind
      rw [allowedFrom_split doc needle blocked start idx h1 h2 h3 h4]
      dsimp only
      rw [ih (idx + 1) (by omega)]
      by_cases hint : intersectsAny (idx, idx + needle.length) blocked
      · rw [if_pos hint, if_pos hint, List.nil_append]
      · rw [if_neg hint, if_neg hint, List.singleton_append]

theorem find_allowed_eq (doc needle : List Char) (blocked : List Span) :
    find_allowed_occurrences doc needle blocked =
      allowedPositions doc needle blocked := by
  rw [find_allowed_occurrences, allowedPositions,
    findOccAux_eq doc needle blocked (doc.length + 2) 0 (by omega)]

/-! ### Planner lemmas -/

theorem planIssues_append (doc : List Char) (blocked : List Span)
    (xs ys : List Issue) :
    planIssues doc blocked (xs ++ ys) =
      match planIssues doc blocked xs with
      | .error e => .error e
      | .ok ps => (planIssues doc blocked ys).map (fun qs => ps ++ qs) := by
  induction xs with
  | nil =>
    cases hys : planIssues doc blocked ys with
    | error e => simp [planIssues, hys, Except.map]
    | ok qs => simp [planIssues, hys, Except.map]
  | cons issue rest ih =>
    rw [List.cons_append]
    cases hocc : find_allowed_occurrences doc issue.replace_text blocked with
    | nil => simp [planIssues, hocc]
    | cons p t =>
      cases t with
      | nil =>
        simp only [planIssues, hocc]
        rw [ih]
        cases hrest : planIssues doc blocked rest with
        | error e => rfl
        | ok ps =>
          cases hys : planIssues doc blocked ys with
          | error e => rfl
          | ok qs => simp [Except.map]
      | cons q t2 => simp [planIssues, hocc]

/-- C1: for every document, forbidden-span list and issue, once planning has
succeeded on the issues before it, the per-issue resolution of
`plan_replacements` is decided by the occurrences of the issue's
`replace_text` surviving the forbidden-region filter (all positions of a
left-to-right scan, overlapping ones included, whose span intersects no
forbidden span): zero such occurrences raise the NotFound-style
`MalformedToolCall` naming the issue, two or more raise the Ambiguous-style
error naming the issue and the occurrence count, and exactly one produces
the `ReplacementPlan` at that position. -/
theorem plan_single_issue_cases (doc : List Char) (blocked : List Span)
    (pre post : List Issue) (issue : Issue) (plansPre : List ReplacementPlan)
    (hpre : planIssues doc blocked pre = .ok plansPre) :
    (allowedPositions doc issue.replace_text blocked = [] →
      planIssues doc blocked (pre ++ issue :: post) = .error (.notFound issue.id) ∧
      ∀ allow, blocked = blockedFor doc allow →
        plan_replacements doc (pre ++ issue :: post) allow =
          .error (.notFound issue.id)) ∧
    (∀ p, allowedPositions doc issue.replace_text blocked = [p] →
      planIssues doc blocked (pre ++ issue :: post) =
        (planIssues doc blocked post).map
          (fun ps => plansPre ++
            { start := p, endPos := p + issue.replace_text.length,
              replacement := issue.replace_with, issue_id := issue.id } :: ps)) ∧
    (2 ≤ (allowedPositions doc issue.replace_text blocked).length →
      planIssues doc blocked (pre ++ issue :: post) =
        .error (.ambiguous issue.id
          (allowedPositions doc issue.replace_text blocked).length) ∧
      ∀ allow, blocked = blockedFor doc allow →
        plan_replacements doc (pre ++ issue :: post) allow =
          .error (.ambiguous issue.id
            (allowedPositions doc issue.replace_text blocked).length)) := by
  have hsplit : planIssues doc blocked (pre ++ issue :: post) =
      (planIssues doc blocked (issue :: post)).map (fun qs => plansPre ++ qs) := by
    rw [planIssues_append, hpre]
  refine ⟨?_, ?_, ?_⟩
  · intro h0
    have hcons : planIssues doc blocked (issue :: post) =
        .error (.notFound issue.id) := by
      simp only [planIssues, find_allowed_eq, h0]
    have hplan : planIssues doc blocked (pre ++ issue :: post) =
        .error (.notFound issue.id) := by
      rw [hsplit, hcons]; rfl
    refine ⟨hplan, ?_⟩
    intro allow heq
    subst heq
    simp only [plan_replacements, hplan]
  · intro p hp
    have hcons : planIssues doc blocked (issue :: post) =
        (planIssues doc blocked post).map
          (fun ps =>
            { start := p, endPos := p + issue.replace_text.length,
              replacement := issue.replace_with, issue_id := issue.id } :: ps) := by
      simp only [planIssues, find_allowed_eq, hp]
    rw [hsplit, hcons]
    cases planIssues doc blocked post with
    | error e => rfl
    | ok qs => simp [Except.map]
  · intro h2
    rcases hlist : allowedPositions doc issue.replace_text blocked with _ | ⟨p, _ | ⟨q, t⟩⟩
    · rw [hlist] at h2; simp at h2
    · rw [hlist] at h2; simp at h2
    · have hcons : planIssues doc blocked (issue :: post) =
          .error (.ambiguous issue.id (p :: q :: t).length) := by
        simp only [planIssues, find_allowed_eq, hlist]
      have hplan : planIssues doc blocked (pre ++ issue :: post) =
          .error (.ambiguous issue.id (p :: q :: t).length) := by
        rw [hsplit, hcons]; rfl
      refine ⟨hplan, ?_⟩
      intro allow heq
      subst heq
      simp only [plan_replacements, hplan]

/-- Witness for C1 at a concrete input: in the document `cat dog` the text
`cat` has the unique allowed occurrence `0`, and planning produces exactly
the plan at that position. -/
theorem plan_single_issue_cases_witness :
    planIssues ("cat dog".toList) (blockedFor ("cat dog".toList) false)
        [mkIssue "i1" "cat" "tab"] =
      .ok [{ start := 0, endPos := 3, replacement := "tab".toList,
             issue_id := "i1" }] := by
  have h := (plan_single_issue_cases ("cat dog".toList)
      (blockedFor ("cat dog".toList) false) [] [] (mkIssue "i1" "cat" "tab")
      [] rfl).2.1 0 (by decide)
  simpa [planIssues, mkIssue] using h

theorem planIssues_resolves (doc : List Char) (blocked : List Span) :
    ∀ (issues : List Issue),
      (∀ issue ∈ issues,
        (allowedPositions doc issue.replace_text blocked).length = 1) →
      planIssues doc blocked issues = .ok (resolvePlans doc blocked issues) := by
  intro issues
  induction issues with
  | nil => intro _; rfl
  | cons issue rest ih =>
    intro h
    have h1 := h issue (List.mem_cons_self issue rest)
    obtain ⟨p, hp⟩ := List.length_eq_one.mp h1
    simp only [planIssues, find_allowed_eq, hp]
    rw [ih (fun i hi => h i (List.mem_cons_of_mem issue hi))]
    simp [resolvePlans, resolvedPlan, hp, Except.map]

theorem firstOverlap_eq_none_iff (l : List ReplacementPlan) :
    firstOverlap l = none ↔ l.Chain' (fun p q => p.endPos ≤ q.start) := by
  induction l with
  | nil => simp [firstOverlap]
  | cons p rest ih =>
    cases rest with
    | nil => simp [firstOverlap]
    | cons q rest2 =>
      rw [List.chain'_cons, ← ih]
      simp only [firstOverlap]
      by_cases h : q.start < p.endPos
      · rw [if_pos h]
        simp
        omega
      · rw [if_neg h]
        constructor
        · exact fun hm => ⟨by omega, hm⟩
        · exact fun hm => hm.2

theorem firstOverlap_eq_some (l : List ReplacementPlan) (a b : String)
    (h : firstOverlap l = some (a, b)) :
    ∃ l₁ p q l₂, l = l₁ ++ p :: q :: l₂ ∧ q.start < p.endPos ∧
      a = p.issue_id ∧ b = q.issue_id := by
  induction l with
  | nil => simp [firstOverlap] at h
  | cons p rest ih =>
    cases rest with
    | nil => simp [firstOverlap] at h
    | cons q rest2 =>
      simp only [firstOverlap] at h
      by_cases hpq : q.start < p.endPos
      · rw [if_pos hpq] at h
        have hab : p.issue_id = a ∧ q.issue_id = b := by
          have := Option.some.inj h
          exact ⟨congrArg Prod.fst this, congrArg Prod.snd this⟩
        exact ⟨[], p, q, rest2, rfl, hpq, hab.1.symm, hab.2.symm⟩
      · rw [if_neg hpq] at h
        obtain ⟨l₁, p', q', l₂, heq, hlt, ha, hb⟩ := ih h
        exact ⟨p :: l₁, p', q', l₂, by rw [List.cons_append, heq], hlt, ha, hb⟩

theorem chain'_nonoverlap_pairwise : ∀ (l : List ReplacementPlan),
    (∀ p ∈ l, p.start ≤ p.endPos) →
    l.Chain' (fun p q => p.endPos ≤ q.start) →
    l.Pairwise (fun p q => p.endPos ≤ q.start) := by
  intro l
  induction l with
  | nil => intro _ _; simp
  | cons p rest ih =>
    intro hwf hc
    cases rest with
    | nil => simp
    | cons q rest2 =>
      rw [List.chain'_cons] at hc
      obtain ⟨hpq, hc2⟩ := hc
      have hpw2 := ih (fun x hx => hwf x (List.mem_cons_of_mem _ hx)) hc2
      rw [List.pairwise_cons]
      refine ⟨?_, hpw2⟩
      intro z hz
      rcases List.mem_cons.mp hz with rfl | hz2
      · exact hpq
      · have h1 := (List.pairwise_cons.mp hpw2).1 z hz2
        have h2 : q.start ≤ q.endPos := hwf q (by simp)
        omega

theorem resolvePlans_wf (doc : List Char) (blocked : List Span)
    (issues : List Issue) :
    ∀ pl ∈ resolvePlans doc blocked issues, pl.start ≤ pl.endPos := by
  intro pl hpl
  rw [resolvePlans, List.mem_map] at hpl
  obtain ⟨issue, _, rfl⟩ := hpl
  simp [resolvedPlan]

/-- C2: for every document and issue list in which each issue individually
resolves to a unique allowed occurrence, `plan_replacements` resolves every
issue to its plan, sorts the plans by `(start, end)` and then: if some
adjacent pair of the sorted list has the next plan's start strictly below
the previous plan's end, it fails with the Overlapping error naming both
issue identifiers of such an adjacent pair; otherwise it returns the sorted
plan list, which is sorted by the `(start, end)` key and pairwise
non-overlapping. -/
theorem plan_overlap_check (doc : List Char) (issues : List Issue) (allow : Bool)
    (h : ∀ issue ∈ issues,
      (allowedPositions doc issue.replace_text (blockedFor doc allow)).length = 1) :
    planIssues doc (blockedFor doc allow) issues =
      .ok (resolvePlans doc (blockedFor doc allow) issues) ∧
    ((sortPlans (resolvePlans doc (blockedFor doc allow) issues)).Chain'
        (fun p q => p.endPos ≤ q.start) →
      plan_replacements doc issues allow =
        .ok (sortPlans (resolvePlans doc (blockedFor doc allow) issues)) ∧
      (sortPlans (resolvePlans doc (blockedFor doc allow) issues)).Pairwise
        (fun p q => planLe p q = true) ∧
      (sortPlans (resolvePlans doc (blockedFor doc allow) issues)).Pairwise
        (fun p q => p.endPos ≤ q.start)) ∧
    (¬ (sortPlans (resolvePlans doc (blockedFor doc allow) issues)).Chain'
        (fun p q => p.endPos ≤ q.start) →
      ∃ l₁ p q l₂,
        sortPlans (resolvePlans doc (blockedFor doc allow) issues) =
          l₁ ++ p :: q :: l₂ ∧ q.start < p.endPos ∧
        plan_replacements doc issues allow =
          .error (.overlapping p.issue_id q.issue_id)) := by
  have hres := planIssues_resolves doc (blockedFor doc allow) issues h
  refine ⟨hres, ?_, ?_⟩
  · intro hchain
    have hnone : firstOverlap
        (sortPlans (resolvePlans doc (blockedFor doc allow) issues)) = none :=
      (firstOverlap_eq_none_iff _).mpr hchain
    refine ⟨?_, sortPlans_sorted _, ?_⟩
    · simp only [plan_replacements, hres, hnone]
    · refine chain'_nonoverlap_pairwise _ ?_ hchain
      intro pl hpl
      exact resolvePlans_wf doc _ issues pl ((mem_sortPlans pl _).mp hpl)
  · intro hchain
    cases hov : firstOverlap
        (sortPlans (resolvePlans doc (blockedFor doc allow) issues)) with
    | none => exact absurd ((firstOverlap_eq_none_iff _).mp hov) hchain
    | some ab =>
      obtain ⟨l₁, p, q, l₂, heq, hlt, ha, hb⟩ :=
        firstOverlap_eq_some _ ab.1 ab.2 (by rw [hov])
      refine ⟨l₁, p, q, l₂, heq, hlt, ?_⟩
      simp only [plan_replacements, hres, hov]
      rw [← ha, ← hb]

/-- Witness for C2 at a concrete input: in `very good` the issues replacing
`very` and `good` resolve uniquely, the sorted plans do not overlap, and
planning returns them in order. -/
theorem plan_overlap_check_witness :
    plan_replacements ("very good".toList)
        [mkIssue "i1" "very" "so", mkIssue "i2" "good" "nice"] false =
      .ok [{ start := 0, endPos := 4, replacement := "so".toList, issue_id := "i1" },
           { start := 5, endPos := 9, replacement := "nice".toList, issue_id := "i2" }] := by
  have heq : sortPlans (resolvePlans ("very good".toList)
      (blockedFor ("very good".toList) false)
      [mkIssue "i1" "very" "so", mkIssue "i2" "good" "nice"]) =
      [{ start := 0, endPos := 4, replacement := "so".toList, issue_id := "i1" },
       { start := 5, endPos := 9, replacement := "nice".toList, issue_id := "i2" }] := by
    decide
  have h := (plan_overlap_check ("very good".toList)
      [mkIssue "i1" "very" "so", mkIssue "i2" "good" "nice"] false
      (by decide)).2.1 (by rw [heq]; simp [List.chain'_cons])
  rw [heq] at h
  exact h.1

/-! ### Patch application -/

theorem applyLoop_foldl (doc : List Char) :
    ∀ (plans : List ReplacementPlan) (acc : List Char) (cursor : Nat),
      acc ++ applyLoop doc plans cursor =
        (plans.foldl
          (fun (st : List Char × Nat) p =>
            (st.1 ++ pySlice doc st.2 p.start ++ p.replacement, p.endPos))
          (acc, cursor)).1 ++
          doc.drop (plans.foldl
            (fun (st : List Char × Nat) p =>
              (st.1 ++ pySlice doc st.2 p.start ++ p.replacement, p.endPos))
            (acc, cursor)).2 := by
  intro plans
  induction plans with
  | nil =>
    intro acc cursor
    simp [applyLoop]
  | cons p rest ih =>
    intro acc cursor
    simp only [applyLoop, List.foldl_cons]
    rw [← ih (acc ++ pySlice doc cursor p.start ++ p.replacement) p.endPos]
    simp [List.append_assoc]

/-- C3: for every document and plan list that is sorted ascending, pairwise
non-overlapping and within the document bounds, `apply_plans` is exactly
the cursor walk of the specification — for each plan in order the text
`document[cursor:plan.start]` then the replacement with the cursor advanced
to `plan.end`, finally the tail `document[cursor:]` — and the empty plan
list returns the document unchanged; being a total function of its inputs,
the operation cannot fail under this precondition. -/
theorem apply_plans_cursor_walk (doc : List Char) (plans : List ReplacementPlan)
    (hsorted : plans.Pairwise (fun p q => p.endPos ≤ q.start))
    (hbounds : ∀ p ∈ plans, p.start ≤ p.endPos ∧ p.endPos ≤ doc.length) :
    apply_plans doc plans = applyWalkSpec doc plans ∧ apply_plans doc [] = doc := by
  refine ⟨?_, rfl⟩
  cases plans with
  | nil => simp [apply_plans, applyWalkSpec]
  | cons p rest =>
    have h := applyLoop_foldl doc (p :: rest) [] 0
    simp only [List.nil_append] at h
    rw [applyWalkSpec]
    exact h

/-- Witness for C3 at a concrete input: replacing `very ` in `very good`
by the empty string through the cursor walk. -/
theorem apply_plans_cursor_walk_witness :
    apply_plans ("very good".toList)
        [{ start := 0, endPos := 5, replacement := [], issue_id := "i1" }] =
      applyWalkSpec ("very good".toList)
        [{ start := 0, endPos := 5, replacement := [], issue_id := "i1" }] ∧
    apply_plans ("very good".toList) [] = "very good".toList :=
  apply_plans_cursor_walk ("very good".toList)
    [{ start := 0, endPos := 5, replacement := [], issue_id := "i1" }]
    (by simp) (by decide)

/-! ### Region-classifier invariants -/

theorem mergeSpans_disjoint_sorted (l : List Span) :
    (mergeSpans l).Pairwise
      (fun a b => spans_intersect a b = false ∧ a.1 ≤ b.1) := by
  refine (mergeSpans_pairwise l).imp ?_
  rintro a b ⟨h1, h2⟩
  refine ⟨?_, h2⟩
  simp only [spans_intersect, Bool.and_eq_false_iff, decide_eq_false_iff_not]
  omega

/-- C4 (amended): the merged policy-A forbidden-span set is pairwise
disjoint and sorted ascending, as is each individually merged constituent
list (fenced-code, inline-code, URL spans); the policy-B blocked list is
the concatenation of the inline-code and URL lists and need not be sorted
as a whole. -/
theorem region_span_sets_disjoint_sorted (doc : List Char) :
    (forbidden_spans doc).Pairwise
      (fun a b => spans_intersect a b = false ∧ a.1 ≤ b.1) ∧
    (fenced_code_spans doc).Pairwise
      (fun a b => spans_intersect a b = false ∧ a.1 ≤ b.1) ∧
    (inline_code_spans doc (fenced_code_spans doc)).Pairwise
      (fun a b => spans_intersect a b = false ∧ a.1 ≤ b.1) ∧
    (url_spans doc).Pairwise
      (fun a b => spans_intersect a b = false ∧ a.1 ≤ b.1) :=
  ⟨mergeSpans_disjoint_sorted _, mergeSpans_disjoint_sorted _,
    mergeSpans_disjoint_sorted _, mergeSpans_disjoint_sorted _⟩

/-- C4 counterexample: with code edits allowed (policy B) the blocked list
computed for the document `https://x `a`` is the concatenation of the
inline-code spans and the URL spans, `[(10, 13), (0, 9)]`, which is not
sorted ascending — refuting the claim that the forbidden span set used for
planning is pairwise disjoint and sorted ascending under either policy. -/
theorem policyB_blocked_not_sorted :
    blockedFor ("https://x `a`".toList) true = [(10, 13), (0, 9)] ∧
    ¬ (blockedFor ("https://x `a`".toList) true).Pairwise
        (fun a b => a.1 ≤ b.1) := by
  refine ⟨by decide, ?_⟩
  intro h
  rw [show blockedFor ("https://x `a`".toList) true = [(10, 13), (0, 9)] from
    by decide] at h
  have := (List.pairwise_cons.mp h).1 (0, 9) (by simp)
  simp at this

/-! ### Fenced-code spans as paired marker lines -/

theorem fencedLoop_pairs (total : Nat) :
    ∀ (lines : List (List Char)) (pos : Nat),
      (fencedLoop total lines pos none =
        pairFences total (fenceMarkerLinesAux lines pos)) ∧
      ∀ s, fencedLoop total lines pos (some s) =
        (match fenceMarkerLinesAux lines pos with
         | [] => [(s, total)]
         | c :: rest => (s, c.2) :: pairFences total rest) := by
  intro lines
  induction lines with
  | nil =>
    intro pos
    exact ⟨rfl, fun s => rfl⟩
  | cons line rest ih =>
    intro pos
    by_cases hf : fenceMarker.isPrefixOf (line.dropWhile isPyWhitespace)
    · constructor
      · simp only [fencedLoop, fenceMarkerLinesAux, if_pos hf]
        rw [(ih (pos + line.length)).2
          (pos + (line.length - (line.dropWhile isPyWhitespace).length))]
        first
        | rfl
        | cases fenceMarkerLinesAux rest (pos + line.length) <;> rfl
      · intro s
        simp only [fencedLoop, fenceMarkerLinesAux, if_pos hf]
        rw [(ih (pos + line.length)).1]
    · constructor
      · simp only [fencedLoop, fenceMarkerLinesAux, if_neg hf]
        exact (ih (pos + line.length)).1
      · intro s
        simp only [fencedLoop, fenceMarkerLinesAux, if_neg hf]
        exact (ih (pos + line.length)).2 s

/-- C5 (amended): `fenced_code_spans` produces, for each fence opened by a
line whose content after stripping leading whitespace begins with a triple
backtick, a span from the opening marker's absolute offset to the end of
the closing fence line (end of document when unterminated) — and the
returned list is the normalisation of these per-fence spans by
`_merge_spans`, which coalesces touching spans, so a fence closing exactly
where the next one opens yields a single merged span. -/
theorem fenced_spans_eq_merged_pairs (text : List Char) :
    fenced_code_spans text =
      mergeSpans (pairFences text.length
        (fenceMarkerLinesAux (splitlinesKE text) 0)) := by
  rw [fenced_code_spans, (fencedLoop_pairs text.length (splitlinesKE text) 0).1]

/-- C5 counterexample: for the document consisting of four fence-marker
lines, the per-fence spans described by the claim are `(0, 8)` and
`(8, 15)` (two fences, each closed at the end of its closing line), but
`fenced_code_spans` returns the single merged span `(0, 15)`; in
particular no returned span ends at offset 8, refuting the claim as
stated. -/
theorem fenced_touching_merged :
    pairFences 15
        (fenceMarkerLinesAux (splitlinesKE ("```\n```\n```\n```".toList)) 0) =
      [(0, 8), (8, 15)] ∧
    fenced_code_spans ("```\n```\n```\n```".toList) = [(0, 15)] ∧
    (0, 8) ∉ fenced_code_spans ("```\n```\n```\n```".toList) :=
  ⟨by decide, by decide, by decide⟩

/-! ### Duplicate filter -/

/-- C6: the duplicate filter of the orchestrator keeps the issues, in their
original order, that it does not drop, and it drops an issue exactly when
the issue's `replace_text` has exactly one occurrence outside the forbidden
regions and the span of that unique occurrence intersects the `[start, end)`
span of some advisory lint issue. -/
theorem filter_duplicates_characterization (doc : List Char)
    (blocked : List Span) (lintIssues : List LintIssue) (issues : List Issue) :
    filterDuplicates doc blocked
        (lintIssues.map (fun li => (li.start, li.endPos))) issues =
      issues.filter (fun issue => !dropsAsDuplicate doc blocked lintIssues issue) ∧
    ∀ issue, dropsAsDuplicate doc blocked lintIssues issue = true ↔
      ∃ p, allowedPositions doc issue.replace_text blocked = [p] ∧
        ∃ li ∈ lintIssues,
          spans_intersect (p, p + issue.replace_text.length)
            (li.start, li.endPos) = true := by
  constructor
  · induction issues with
    | nil => rfl
    | cons issue rest ih =>
      rw [List.filter_cons]
      rcases hlist : allowedPositions doc issue.replace_text blocked
        with _ | ⟨p, _ | ⟨q, t⟩⟩
      · have hdrop : dropsAsDuplicate doc blocked lintIssues issue = false := by
          rw [dropsAsDuplicate, hlist]
        simp only [filterDuplicates, find_allowed_eq, hlist, hdrop,
          Bool.not_false, if_true]
        rw [ih]
      · have hdrop : dropsAsDuplicate doc blocked lintIssues issue =
            intersectsAny (p, p + issue.replace_text.length)
              (lintIssues.map (fun li => (li.start, li.endPos))) := by
          rw [dropsAsDuplicate, hlist]
        by_cases hint : intersectsAny (p, p + issue.replace_text.length)
            (lintIssues.map (fun li => (li.start, li.endPos))) = true
        · simp only [filterDuplicates, find_allowed_eq, hlist, if_pos hint,
            hdrop, hint, Bool.not_true, if_false]
          exact ih
        · simp only [filterDuplicates, find_allowed_eq, hlist, if_neg hint,
            hdrop, Bool.not_eq_true] at hint ⊢
          simp only [hint, Bool.not_false, if_true]
          rw [ih]
      · have hdrop : dropsAsDuplicate doc blocked lintIssues issue = false := by
          rw [dropsAsDuplicate, hlist]
        simp only [filterDuplicates, find_allowed_eq, hlist, hdrop,
          Bool.not_false, if_true]
        rw [ih]
  · intro issue
    rcases hlist : allowedPositions doc issue.replace_text blocked
      with _ | ⟨p, _ | ⟨q, t⟩⟩
    · rw [dropsAsDuplicate, hlist]
      simp
    · rw [dropsAsDuplicate, hlist]
      simp only [intersectsAny, List.any_eq_true, List.mem_map]
      constructor
      · rintro ⟨s, ⟨li, hli, rfl⟩, hint⟩
        exact ⟨p, rfl, li, hli, hint⟩
      · rintro ⟨p', hp', li, hli, hint⟩
        have : p' = p := (List.cons.inj hp'.symm).1
        subst this
        exact ⟨(li.start, li.endPos), ⟨li, hli, rfl⟩, hint⟩
    · rw [dropsAsDuplicate, hlist]
      simp

/-- Witness for C6 at a concrete input: the sole issue replacing `a` in
`a b` resolves uniquely to position 0, which intersects the lint span
`[0, 1)`, so the filter drops it. -/
theorem filter_duplicates_characterization_witness :
    filterDuplicates ("a b".toList) []
        ([({ id := "L1", rule := "r", message := "m", severity := .info,
             start := 0, endPos := 1 } : LintIssue)].map
          (fun li => (li.start, li.endPos)))
        [mkIssue "i1" "a" "x"] = [] := by
  have h := (filter_duplicates_characterization ("a b".toList) []
      [{ id := "L1", rule := "r", message := "m", severity := .info,
         start := 0, endPos := 1 }] [mkIssue "i1" "a" "x"]).1
  rw [h]
  decide

/-- C10: an issue whose `replace_text` has zero or several occurrences
outside the forbidden regions is never dropped by the duplicate filter,
whatever the lint spans, and such an issue fails in the planner with
NotFound (zero occurrences) or Ambiguous (several) respectively. -/
theorem filter_keeps_nonunique (doc : List Char) (blocked : List Span)
    (lint_spans : List Span) (issues : List Issue) (issue : Issue)
    (hmem : issue ∈ issues)
    (hne : (allowedPositions doc issue.replace_text blocked).length ≠ 1) :
    issue ∈ filterDuplicates doc blocked lint_spans issues ∧
    ((allowedPositions doc issue.replace_text blocked).length = 0 →
      planIssues doc blocked [issue] = .error (.notFound issue.id)) ∧
    (2 ≤ (allowedPositions doc issue.replace_text blocked).length →
      planIssues doc blocked [issue] =
        .error (.ambiguous issue.id
          (allowedPositions doc issue.replace_text blocked).length)) := by
  refine ⟨?_, ?_, ?_⟩
  · induction issues with
    | nil => cases hmem
    | cons i rest ih =>
      rcases List.mem_cons.mp hmem with rfl | hrest
      · rcases hlist : allowedPositions doc issue.replace_text blocked
          with _ | ⟨p, _ | ⟨q, t⟩⟩
        · simp only [filterDuplicates, find_allowed_eq, hlist]
          exact List.mem_cons_self _ _
        · rw [hlist] at hne; simp at hne
        · simp only [filterDuplicates, find_allowed_eq, hlist]
          exact List.mem_cons_self _ _
      · have htail := ih hrest
        rcases hlist : allowedPositions doc i.replace_text blocked
          with _ | ⟨p, _ | ⟨q, t⟩⟩
        · simp only [filterDuplicates, find_allowed_eq, hlist]
          exact List.mem_cons_of_mem _ htail
        · simp only [filterDuplicates, find_allowed_eq, hlist]
          by_cases hint : intersectsAny (p, p + i.replace_text.length) lint_spans
          · rw [if_pos hint]; exact htail
          · rw [if_neg hint]; exact List.mem_cons_of_mem _ htail
        · simp only [filterDuplicates, find_allowed_eq, hlist]
          exact List.mem_cons_of_mem _ htail
  · intro h0
    have hlist : allowedPositions doc issue.replace_text blocked = [] :=
      List.length_eq_zero.mp h0
    simp only [planIssues, find_allowed_eq, hlist]
  · intro h2
    rcases hlist : allowedPositions doc issue.replace_text blocked
      with _ | ⟨p, _ | ⟨q, t⟩⟩
    · rw [hlist] at h2; simp at h2
    · rw [hlist] at h2; simp at h2
    · simp only [planIssues, find_allowed_eq, hlist]

/-- Witness for C10 at a concrete input: in `cat cat` the text `cat` has
two allowed occurrences; even with a lint span covering the first one the
issue passes the filter and then fails as Ambiguous in the planner. -/
theorem filter_keeps_nonunique_witness :
    mkIssue "i1" "cat" "dog" ∈ filterDuplicates ("cat cat".toList)
        (blockedFor ("cat cat".toList) false) [(0, 3)]
        [mkIssue "i1" "cat" "dog"] ∧
    planIssues ("cat cat".toList) (blockedFor ("cat cat".toList) false)
        [mkIssue "i1" "cat" "dog"] = .error (.ambiguous "i1" 2) := by
  have h := filter_keeps_nonunique ("cat cat".toList)
      (blockedFor ("cat cat".toList) false) [(0, 3)]
      [mkIssue "i1" "cat" "dog"] (mkIssue "i1" "cat" "dog")
      (List.mem_cons_self _ _) (by decide)
  refine ⟨h.1, ?_⟩
  have h2 := h.2.2 (by decide)
  rw [show (allowedPositions ("cat cat".toList)
      (mkIssue "i1" "cat" "dog").replace_text
      (blockedFor ("cat cat".toList) false)).length = 2 from by decide] at h2
  exact h2

/-! ### Retry loop -/

theorem reviewLoop_fail
    (attempt : Option String → Except MalformedToolCall ReviewOutcome) :
    ∀ (n k : Nat),
      (∀ i, k ≤ i → i < k + n → ∃ e, attempt (fbChain attempt i) = .error e) →
      reviewLoop attempt n (fbChain attempt k) (fbChain attempt k) =
        .failure ((fbChain attempt (k + n)).getD "unknown") := by
  intro n
  induction n with
  | zero =>
    intro k _
    simp [reviewLoop]
  | succ n ih =>
    intro k hfail
    obtain ⟨e, he⟩ := hfail k (le_refl k) (by omega)
    have hnext : fbChain attempt (k + 1) = some e.reason := by
      simp only [fbChain, he]
    simp only [reviewLoop, he]
    rw [← hnext]
    have := ih (k + 1) (fun i h1 h2 => hfail i (by omega) (by omega))
    rw [show k + 1 + n = k + (n + 1) from by omega] at this
    exact this

theorem reviewLoop_succeed
    (attempt : Option String → Except MalformedToolCall ReviewOutcome) :
    ∀ (n k j : Nat) (o : ReviewOutcome), j < n →
      (∀ i, k ≤ i → i < k + j → ∃ e, attempt (fbChain attempt i) = .error e) →
      attempt (fbChain attempt (k + j)) = .ok o →
      reviewLoop attempt n (fbChain attempt k) (fbChain attempt k) =
        .success o := by
  intro n
  induction n with
  | zero =>
    intro k j o hj
    exact absurd hj (by omega)
  | succ n ih =>
    intro k j o hj hfail hok
    cases j with
    | zero =>
      rw [Nat.add_zero] at hok
      simp only [reviewLoop, hok]
    | succ j =>
      obtain ⟨e, he⟩ := hfail k (le_refl k) (by omega)
      have hnext : fbChain attempt (k + 1) = some e.reason := by
        simp only [fbChain, he]
      simp only [reviewLoop, he]
      rw [← hnext]
      refine ih (k + 1) j o (by omega)
        (fun i h1 h2 => hfail i (by omega) (by omega)) ?_
      rw [show k + 1 + j = k + (j + 1) from by omega]
      exact hok

/-- C7: every `MalformedToolCall` raised inside one attempt of the review
orchestration — whether from generation parsing (JsonInvalid/SchemaInvalid,
abstracted in `genParse`) or from planning (NotFound/Ambiguous/Overlapping,
raised by `plan_replacements` and caught by the loop) — drives another
attempt with the error's reason fed back as the next feedback (the chain
`fbChain`), within a budget of `retries + 1` total attempts
(`RETRIES_ON_MALFORMED + 1` in the code): the first successful attempt's
outcome is returned, and only when every attempt in the budget fails does
the request terminate with a failure carrying the last recorded reason. -/
theorem review_retry_policy (doc : List Char) (allow : Bool)
    (lint_issues : List LintIssue)
    (genParse : Option String → Except MalformedToolCall ReviewResponse)
    (retries : Nat) :
    (∀ k o, k ≤ retries →
      (∀ i, i < k → ∃ e,
        reviewAttempt doc allow lint_issues genParse
          (fbChain (reviewAttempt doc allow lint_issues genParse) i) =
            .error e) →
      reviewAttempt doc allow lint_issues genParse
        (fbChain (reviewAttempt doc allow lint_issues genParse) k) = .ok o →
      review doc allow lint_issues genParse retries = .success o) ∧
    (∀ e, (∀ i, i < retries → ∃ e',
        reviewAttempt doc allow lint_issues genParse
          (fbChain (reviewAttempt doc allow lint_issues genParse) i) =
            .error e') →
      reviewAttempt doc allow lint_issues genParse
        (fbChain (reviewAttempt doc allow lint_issues genParse) retries) =
          .error e →
      review doc allow lint_issues genParse retries = .failure e.reason) := by
  constructor
  · intro k o hk hfail hok
    have hrun := reviewLoop_succeed
      (reviewAttempt doc allow lint_issues genParse) (retries + 1) 0 k o
      (by omega) (fun i h1 h2 => hfail i (by omega)) (by simpa using hok)
    simpa [review, fbChain] using hrun
  · intro e hfail hlast
    have hall : ∀ i, 0 ≤ i → i < 0 + (retries + 1) →
        ∃ e', reviewAttempt doc allow lint_issues genParse
          (fbChain (reviewAttempt doc allow lint_issues genParse) i) =
            .error e' := by
      intro i _ hi
      rcases Nat.lt_or_ge i retries with h | h
      · exact hfail i h
      · have : i = retries := by omega
        subst this
        exact ⟨e, hlast⟩
    have hrun := reviewLoop_fail
      (reviewAttempt doc allow lint_issues genParse) (retries + 1) 0 hall
    have hfb : fbChain (reviewAttempt doc allow lint_issues genParse)
        (0 + (retries + 1)) = some e.reason := by
      rw [Nat.zero_add]
      simp only [fbChain, hlast]
    rw [hfb] at hrun
    simpa [review, fbChain] using hrun

/-- Witness for C7: with the oracle `wGenParse` whose first attempt is
malformed JSON and whose retry succeeds with an empty issue list, the
review of `ab` with a budget of one retry returns the second attempt's
outcome. -/
theorem review_retry_policy_witness :
    review ("ab".toList) false [] wGenParse RETRIES_ON_MALFORMED =
      .success { version := "v1", updated_doc := "ab".toList,
                 llm_review := { version := "v1", issues := [] },
                 lint_issues := [] } := by
  refine (review_retry_policy ("ab".toList) false [] wGenParse
    RETRIES_ON_MALFORMED).1 1 _ (le_refl 1) ?_ ?_
  · intro i hi
    have : i = 0 := by omega
    subst this
    exact ⟨⟨"Model did not return valid JSON"⟩, by rfl⟩
  · rfl

/-! ### Diff round trip -/

set_option maxHeartbeats 1000000 in
theorem join_splitlinesAux : ∀ (acc cs : List Char),
    joinLines (splitlinesAux acc cs) = acc.reverse ++ cs := by
  intro acc cs
  induction acc, cs using splitlinesAux.induct with
  | case1 acc hemp =>
    rw [splitlinesAux.eq_1, if_pos hemp]
    rw [List.isEmpty_iff] at hemp
    subst hemp
    rfl
  | case2 acc hemp =>
    rw [splitlinesAux.eq_1, if_neg hemp]
    simp [joinLines]
  | case3 acc rest ih =>
    rw [splitlinesAux.eq_2]
    show (acc.reverse ++ ['\r', '\n']) ++ joinLines (splitlinesAux [] rest) =
      acc.reverse ++ '\r' :: '\n' :: rest
    rw [ih]
    simp
  | case4 acc c rest hne hbr ih =>
    rw [splitlinesAux.eq_3 acc c rest hne, if_pos hbr]
    show (acc.reverse ++ [c]) ++ joinLines (splitlinesAux [] rest) =
      acc.reverse ++ c :: rest
    rw [ih]
    simp
  | case5 acc c rest hne hbr ih =>
    rw [splitlinesAux.eq_3 acc c rest hne, if_neg hbr, ih]
    simp

theorem join_splitlines (text : List Char) :
    joinLines (splitlinesKE text) = text := by
  rw [splitlinesKE, join_splitlinesAux]
  rfl

theorem applyDiff_dels : ∀ (bs : List (List Char)),
    applyDiff (bs.map .del) bs = some [] := by
  intro bs
  induction bs with
  | nil => rfl
  | cons b bs ih => simp [applyDiff, ih]

theorem applyDiff_reverse_lineDiff : ∀ (as bs : List (List Char)),
    applyDiff (reverseDiff (lineDiff as bs)) bs = some as := by
  intro as
  induction as with
  | nil =>
    intro bs
    rw [lineDiff, reverseDiff, List.map_map]
    have : (fun op =>
        match op with
        | DiffOp.keep l => DiffOp.keep l
        | DiffOp.del l => DiffOp.ins l
        | DiffOp.ins l => DiffOp.del l) ∘ DiffOp.ins = DiffOp.del := by
      funext l
      rfl
    rw [this]
    exact applyDiff_dels bs
  | cons a as ih =>
    intro bs
    cases bs with
    | nil =>
      rw [lineDiff]
      show applyDiff (DiffOp.ins a :: reverseDiff (lineDiff as [])) [] = _
      rw [applyDiff, ih []]
      rfl
    | cons b bs =>
      by_cases hab : a = b
      · subst hab
        rw [lineDiff, if_pos rfl]
        show applyDiff (DiffOp.keep a :: reverseDiff (lineDiff as bs)) (a :: bs) = _
        rw [applyDiff, if_pos rfl, ih bs]
        rfl
      · rw [lineDiff, if_neg hab]
        show applyDiff (DiffOp.ins a :: reverseDiff (lineDiff as (b :: bs)))
          (b :: bs) = _
        rw [applyDiff, ih (b :: bs)]
        rfl

/-- C8: for every document, issue list and policy for which planning
succeeds, applying the resulting plans once and taking the line-based diff
between the original and new document, then reversing that diff and
reapplying it to the new document, reconstructs the original document
exactly. -/
theorem diff_round_trip (doc : List Char) (issues : List Issue) (allow : Bool)
    (plans : List ReplacementPlan)
    (h : plan_replacements doc issues allow = .ok plans) :
    (applyDiff
        (reverseDiff (lineDiff (splitlinesKE doc)
          (splitlinesKE (apply_plans doc plans))))
        (splitlinesKE (apply_plans doc plans))).map joinLines = some doc := by
  rw [applyDiff_reverse_lineDiff]
  simp [join_splitlines]

/-- Witness for C8 at a concrete input: deleting `very ` from `very good`
plans successfully, and reversing the diff of the edit reconstructs the
original document. -/
theorem diff_round_trip_witness :
    plan_replacements ("very good".toList) [mkIssue "i1" "very " ""] false =
      .ok [{ start := 0, endPos := 5, replacement := [], issue_id := "i1" }] ∧
    (applyDiff
        (reverseDiff (lineDiff (splitlinesKE ("very good".toList))
          (splitlinesKE (apply_plans ("very good".toList)
            [{ start := 0, endPos := 5, replacement := [], issue_id := "i1" }]))))
        (splitlinesKE (apply_plans ("very good".toList)
          [{ start := 0, endPos := 5, replacement := [],
             issue_id := "i1" }]))).map joinLines =
      some ("very good".toList) :=
  ⟨by rfl,
    diff_round_trip ("very good".toList) [mkIssue "i1" "very " ""] false _
      (by rfl)⟩

/-! ### Inline-code spans never straddle fenced blocks -/

theorem dropWhile_sub_mem {α : Type} (p : α → Bool) (l : List α) (x : α)
    (hx : x ∈ l) : x ∈ l.dropWhile p ∨ p x = true := by
  induction l with
  | nil => cases hx
  | cons a t ih =>
    rw [List.dropWhile_cons]
    by_cases hpa : p a
    · rw [if_pos hpa]
      rcases List.mem_cons.mp hx with rfl | hxt
      · exact Or.inr hpa
      · exact ih hxt
    · rw [if_neg hpa]
      exact Or.inl hx

theorem dropWhile_head_not {α : Type} (p : α → Bool) (l : List α) (b : α)
    (t : List α) (h : l.dropWhile p = b :: t) : p b = false := by
  induction l with
  | nil => simp [List.dropWhile] at h
  | cons a l ih =>
    rw [List.dropWhile_cons] at h
    by_cases hpa : p a
    · rw [if_pos hpa] at h
      exact ih h
    · rw [if_neg hpa] at h
      injection h with h1 h2
      subst h1
      simpa using hpa

theorem fencedLoop_wf (total : Nat) :
    ∀ (lines : List (List Char)) (pos : Nat) (st : Option Nat),
      (∀ s, st = some s → s + 3 ≤ pos) →
      pos + (joinLines lines).length ≤ total →
      ∀ sp ∈ fencedLoop total lines pos st, sp.1 + 3 ≤ sp.2 := by
  intro lines
  induction lines with
  | nil =>
    intro pos st hst htot sp hsp
    cases st with
    | none => simp [fencedLoop] at hsp
    | some s =>
      simp only [fencedLoop, List.mem_singleton] at hsp
      subst hsp
      have h1 := hst s rfl
      have h2 : pos ≤ total := by simpa [joinLines] using htot
      dsimp only
      omega
  | cons line rest ih =>
    intro pos st hst htot sp hsp
    have htot' : pos + line.length + (joinLines rest).length ≤ total := by
      have hjoin : joinLines (line :: rest) = line ++ joinLines rest := rfl
      rw [hjoin, List.length_append] at htot
      omega
    cases st with
    | none =>
      by_cases hf : fenceMarker.isPrefixOf (line.dropWhile isPyWhitespace)
      · simp only [fencedLoop, if_pos hf] at hsp
        refine ih (pos + line.length) _ ?_ htot' sp hsp
        intro s hs
        injection hs with hs
        subst hs
        have h3 : 3 ≤ (line.dropWhile isPyWhitespace).length := by
          have hp := List.isPrefixOf_iff_prefix.mp hf
          have := hp.length_le
          simpa [fenceMarker] using this
        have hle : (line.dropWhile isPyWhitespace).length ≤ line.length :=
          (List.dropWhile_suffix _).length_le
        omega
      · simp only [fencedLoop, if_neg hf] at hsp
        exact ih (pos + line.length) none (fun s hs => by cases hs) htot' sp hsp
    | some s0 =>
      by_cases hf : fenceMarker.isPrefixOf (line.dropWhile isPyWhitespace)
      · simp only [fencedLoop, if_pos hf] at hsp
        rcases List.mem_cons.mp hsp with rfl | hsp'
        · have := hst s0 rfl
          dsimp only
          omega
        · exact ih (pos + line.length) none (fun s hs => by cases hs) htot' sp hsp'
      · simp only [fencedLoop, if_neg hf] at hsp
        refine ih (pos + line.length) (some s0) ?_ htot' sp hsp
        intro s hs
        injection hs with hs
        subst hs
        have := hst s0 rfl
        omega

theorem fenced_wf (text : List Char) :
    ∀ z ∈ fenced_code_spans text, z.1 + 3 ≤ z.2 := by
  intro z hz
  refine mergeSpans_wf 3 _ ?_ z hz
  intro sp hsp
  refine fencedLoop_wf text.length (splitlinesKE text) 0 none
    (fun s hs => by cases hs) ?_ sp hsp
  rw [join_splitlines]
  omega

theorem inlineScanAux_avoid (text : List Char) (blocked : List Span)
    (hgap : blocked.Pairwise (fun a b => a.2 < b.1)) :
    ∀ (fuel i : Nat) (blocks : List Span) (openTick : Option Nat),
      blocks <:+ blocked →
      (∀ b ∈ blocked, b ∉ blocks → b.2 ≤ i) →
      (∀ o, openTick = some o → ∀ b ∈ blocked, b.1 < b.2 → b.2 ≤ o ∨ i ≤ b.1) →
      ∀ s ∈ inlineScanAux text fuel i blocks openTick,
        ∀ b ∈ blocked, b.1 < b.2 → b.2 ≤ s.1 ∨ s.2 ≤ b.1 := by
  intro fuel
  induction fuel with
  | zero =>
    intro i blocks openTick _ _ _ s hs
    simp [inlineScanAux] at hs
  | succ fuel ih =>
    intro i blocks openTick hsuf hpast hopen s hs
    simp only [inlineScanAux] at hs
    by_cases hlen : i < text.length
    case neg =>
      rw [dif_neg hlen] at hs
      simp at hs
    case pos =>
    rw [dif_pos hlen] at hs
    have hsufbs : blocks.dropWhile (fun b => decide (b.2 ≤ i)) <:+ blocked :=
      (List.dropWhile_suffix _).trans hsuf
    have hpastbs : ∀ b ∈ blocked,
        b ∉ blocks.dropWhile (fun b => decide (b.2 ≤ i)) → b.2 ≤ i := by
      intro b hb hnb
      by_cases hbb : b ∈ blocks
      · rcases dropWhile_sub_mem _ blocks b hbb with hmem | hp
        · exact absurd hmem hnb
        · simpa using hp
      · exact hpast b hb hbb
    cases hbs : blocks.dropWhile (fun b => decide (b.2 ≤ i)) with
    | cons b0 rest0 =>
      rw [hbs] at hs hsufbs hpastbs
      dsimp only at hs
      by_cases hin : b0.1 ≤ i ∧ i < b0.2
      · rw [if_pos hin] at hs
        refine ih b0.2 (b0 :: rest0) none hsufbs ?_ (fun o ho => by cases ho) s hs
        intro b hb hnb
        have := hpastbs b hb hnb
        omega
      · rw [if_neg hin] at hs
        have hheadnot : ¬ (b0.2 ≤ i) := by
          have := dropWhile_head_not _ blocks b0 rest0 hbs
          simpa using this
        have hsep : ∀ b ∈ blocked, b.1 < b.2 → b.2 ≤ i ∨ i < b.1 := by
          intro b hb hwfb
          by_cases hbbs : b ∈ (b0 :: rest0)
          · rcases List.mem_cons.mp hbbs with rfl | htail
            · right
              omega
            · have hpw : (b0 :: rest0).Pairwise (fun a b => a.2 < b.1) :=
                hgap.sublist hsufbs.sublist
              have := (List.pairwise_cons.mp hpw).1 b htail
              right
              omega
          · exact Or.inl (hpastbs b hb hbbs)
        by_cases hch : text.get ⟨i, hlen⟩ = backtick
        · rw [if_pos hch] at hs
          cases openTick with
          | none =>
            dsimp only at hs
            refine ih (i + 1) (b0 :: rest0) (some i) hsufbs ?_ ?_ s hs
            · intro b hb hnb
              have := hpastbs b hb hnb
              omega
            · intro o ho b hb hwfb
              injection ho with ho
              subst ho
              rcases hsep b hb hwfb with h | h
              · exact Or.inl h
              · exact Or.inr (by omega)
          | some o =>
            dsimp only at hs
            rcases List.mem_cons.mp hs with rfl | hs'
            · intro b hb hwfb
              rcases hopen o rfl b hb hwfb with h | h
              · exact Or.inl h
              · rcases hsep b hb hwfb with h2 | h2
                · omega
                · exact Or.inr (by omega)
            · refine ih (i + 1) (b0 :: rest0) none hsufbs ?_
                (fun o' ho' => by cases ho') s hs'
              intro b hb hnb
              have := hpastbs b hb hnb
              omega
        · rw [if_neg hch] at hs
          refine ih (i + 1) (b0 :: rest0) openTick hsufbs ?_ ?_ s hs
          · intro b hb hnb
            have := hpastbs b hb hnb
            omega
          · intro o ho b hb hwfb
            rcases hopen o ho b hb hwfb with h | h
            · exact Or.inl h
            · rcases hsep b hb hwfb with h2 | h2
              · omega
              · exact Or.inr (by omega)
    | nil =>
      rw [hbs] at hs hsufbs hpastbs
      dsimp only at hs
      have hsep : ∀ b ∈ blocked, b.1 < b.2 → b.2 ≤ i ∨ i < b.1 := by
        intro b hb hwfb
        exact Or.inl (hpastbs b hb (List.not_mem_nil b))
      by_cases hch : text.get ⟨i, hlen⟩ = backtick
      · rw [if_pos hch] at hs
        cases openTick with
        | none =>
          dsimp only at hs
          refine ih (i + 1) [] (some i) hsufbs ?_ ?_ s hs
          · intro b hb hnb
            have := hpastbs b hb hnb
            omega
          · intro o ho b hb hwfb
            injection ho with ho
            subst ho
            rcases hsep b hb hwfb with h | h
            · exact Or.inl h
            · exact Or.inr (by omega)
        | some o =>
          dsimp only at hs
          rcases List.mem_cons.mp hs with rfl | hs'
          · intro b hb hwfb
            rcases hopen o rfl b hb hwfb with h | h
            · exact Or.inl h
            · rcases hsep b hb hwfb with h2 | h2
              · omega
              · exact Or.inr (by omega)
          · refine ih (i + 1) [] none hsufbs ?_
              (fun o' ho' => by cases ho') s hs'
            intro b hb hnb
            have := hpastbs b hb hnb
            omega
      · rw [if_neg hch] at hs
        refine ih (i + 1) [] openTick hsufbs ?_ ?_ s hs
        · intro b hb hnb
          have := hpastbs b hb hnb
          omega
        · intro o ho b hb hwfb
          rcases hopen o ho b hb hwfb with h | h
          · exact Or.inl h
          · rcases hsep b hb hwfb with h2 | h2
            · omega
            · exact Or.inr (by omega)

/-- C9: the inline-code scan never pairs a backtick appearing before a
fenced-code span with one appearing after it — reaching a blocked span
discards any pending open backtick — so every span produced by
`inline_code_spans` for a document's fenced blocks lies entirely on one
side of every fenced span. -/
theorem inline_never_straddles_fence (text : List Char) (s b : Span)
    (hs : s ∈ inline_code_spans text (fenced_code_spans text))
    (hb : b ∈ fenced_code_spans text) :
    s.2 ≤ b.1 ∨ b.2 ≤ s.1 := by
  have hwf3 : ∀ z ∈ fenced_code_spans text, z.1 + 3 ≤ z.2 := fenced_wf text
  have hpw : (fenced_code_spans text).Pairwise
      (fun a b => a.2 < b.1 ∧ a.1 ≤ b.1) := mergeSpans_pairwise _
  have hgap : (fenced_code_spans text).Pairwise (fun a b => a.2 < b.1) :=
    hpw.imp (fun h => h.1)
  have hlex : (fenced_code_spans text).Pairwise
      (fun a b => lexLeSpan a b = true) := by
    refine hpw.imp_of_mem ?_
    intro a c ha hc hrel
    have hwfa := hwf3 a ha
    simp only [lexLeSpan, Bool.or_eq_true, Bool.and_eq_true, decide_eq_true_eq]
    omega
  have hid : sortLexSpans (fenced_code_spans text) = fenced_code_spans text :=
    sortLexSpans_eq_self _ hlex
  have hbwf : b.1 < b.2 := by
    have := hwf3 b hb
    omega
  rw [inline_code_spans, hid] at hs
  have hraw : ∀ z ∈ inlineScanAux text (text.length + 1) 0
      (fenced_code_spans text) none, b.2 ≤ z.1 ∨ z.2 ≤ b.1 := by
    intro z hz
    exact inlineScanAux_avoid text (fenced_code_spans text) hgap
      (text.length + 1) 0 (fenced_code_spans text) none
      (List.suffix_refl _) (fun b' hb' hnb' => absurd hb' hnb')
      (fun o ho => by cases ho) z hz b hb hbwf
  exact (mergeSpans_avoid b hbwf _ hraw s hs).symm

/-- Witness for C9 at a concrete input: in a document with one fenced block
`(0, 10)` followed by inline code `(10, 13)`, the inline span lies entirely
after the fence. -/
theorem inline_never_straddles_fence_witness :
    (10, 13) ∈ inline_code_spans ("```\nx\n```\n`a`".toList)
        (fenced_code_spans ("```\nx\n```\n`a`".toList)) ∧
    (0, 10) ∈ fenced_code_spans ("```\nx\n```\n`a`".toList) ∧
    (((10, 13) : Span).2 ≤ ((0, 10) : Span).1 ∨
      ((0, 10) : Span).2 ≤ ((10, 13) : Span).1) :=
  ⟨by decide, by decide,
    inline_never_straddles_fence ("```\nx\n```\n`a`".toList) (10, 13) (0, 10)
      (by decide) (by decide)⟩

end DocQA
